import Mathlib

/-!
Verification of the temporal pivot & row-shaping engine of the
apprenticeship-data report scripts (`starts.py`, `london_sme.py`) and of the
version resolver (`utils.py`).

The Python code keys its aggregation dictionaries by strings: a plain academic
year such as `"202425"`, or a year followed by `" Q<n>"` for a quarterly key of
the most recent year.  We embed these keys as the inductive type `PeriodKey`;
`keyChars` gives the exact character encoding the Python code works with, and
the string operations the code performs on keys (`' Q' in key`,
`key.startswith(most_recent_year)`, `key.split(' Q')`, `==`) are embedded as
real character-list operations on that encoding where feasible, or as
structural operations whose doc comments state the (well-formedness)
conditions under which they coincide with the string operation.

Python dictionaries preserve insertion order; we embed them as
insertion-ordered association lists, with `addToAssoc` performing exactly the
`if k not in d: d[k] = 0; d[k] += v` update pattern of the source.
-/

/-- A table key as used by `aggregate_starts_by_provider_year`: either a plain
academic-year string (e.g. `"202425"`), or a quarterly key, built in the
source as `f"{year} Q{quarter}"`. -/
inductive PeriodKey where
  | base (year : String)
  | refined (year : String) (quarter : Nat)
deriving DecidableEq, Repr

/-- The exact character sequence of the Python string that a `PeriodKey`
stands for: a base key is the year string itself, a refined key is
`year + " Q" + str(quarter)`. -/
def keyChars : PeriodKey → List Char
  | .base y => y.data
  | .refined y q => y.data ++ ' ' :: 'Q' :: (toString q).data

/-- One record of `starts_data` as produced by `extract_apprenticeship_starts`
or `extract_london_sme_starts`: the cleaned provider name, the `year` field,
the parsed `quarter` (0 when the quarter field is empty or unparsable, per
`parse_positions(..., default=0)`), and the parsed `starts` count (again 0 by
default; `parse_positions` only accepts digit strings, so counts are
non-negative). -/
structure StartsRecord where
  provider : String
  year : String
  quarter : Nat
  starts : Nat
deriving DecidableEq, Repr

/-- One inner dictionary of the aggregation: year-key → summed starts,
as an insertion-ordered association list. -/
abbrev PeriodDict := List (PeriodKey × Nat)

/-- The aggregated matrix: provider → (year-key → starts), insertion-ordered,
embedding the Python dict-of-dicts. -/
abbrev AggMatrix := List (String × PeriodDict)

/-- Embeds `d.get(k, 0)` on an insertion-ordered dict. -/
def lookupD (k : PeriodKey) : PeriodDict → Nat
  | [] => 0
  | (k', v) :: rest => if k' = k then v else lookupD k rest

/-- Embeds the update pattern
`if k not in d: d[k] = 0` followed by `d[k] += v`:
an existing entry is incremented in place, a missing key is appended. -/
def addToAssoc (k : PeriodKey) (v : Nat) : PeriodDict → PeriodDict
  | [] => [(k, v)]
  | (k', v') :: rest =>
      if k' = k then (k', v' + v) :: rest else (k', v') :: addToAssoc k v rest

/-- Embeds `aggregated.get(provider, {})` (reading a provider's dict,
empty when absent). -/
def provLookup (p : String) : AggMatrix → PeriodDict
  | [] => []
  | (p', d) :: rest => if p' = p then d else provLookup p rest

/-- Embeds `if provider not in aggregated: aggregated[provider] = {}` followed
by the inner-key update: the provider's dict is updated in place, a missing
provider is appended with a fresh singleton dict. -/
def addToAgg (p : String) (k : PeriodKey) (v : Nat) : AggMatrix → AggMatrix
  | [] => [(p, [(k, v)])]
  | (p', d) :: rest =>
      if p' = p then (p', addToAssoc k v d) :: rest
      else (p', d) :: addToAgg p k v rest

/-- The year key chosen for one record inside
`aggregate_starts_by_provider_year`:
`if most_recent_year and year == most_recent_year and quarter > 0:`
`    year_key = f"{year} Q{quarter}"`
`else: year_key = year`.
`most_recent_year` is truthy iff it is a non-`None`, non-empty string. -/
def periodKeyFor (mr : Option String) (year : String) (quarter : Nat) : PeriodKey :=
  if (match mr with
      | some m => !(m == "") && year == m
      | none => false) && decide (0 < quarter)
  then .refined year quarter
  else .base year

/-- Folding one record into the matrix (loop body of
`aggregate_starts_by_provider_year`). -/
def addRecord (mr : Option String) (agg : AggMatrix) (r : StartsRecord) : AggMatrix :=
  addToAgg r.provider (periodKeyFor mr r.year r.quarter) r.starts agg

/-- Embeds `aggregate_starts_by_provider_year(starts_data, most_recent_year)`
(identical in `starts.py` and `london_sme.py`): fold all records into an
initially empty matrix. -/
def aggregate_starts_by_provider_year (data : List StartsRecord)
    (mr : Option String) : AggMatrix :=
  data.foldl (addRecord mr) []

/-- Python string comparison `a < b`: lexicographic by code point, with a
proper prefix sorting before its extensions. -/
def charListLt : List Char → List Char → Bool
  | [], [] => false
  | [], _ :: _ => true
  | _ :: _, [] => false
  | a :: as, b :: bs =>
      decide (a.toNat < b.toNat) || (a == b && charListLt as bs)

/-- Embeds `sorted(set(record['year'] for record in starts_data))[-1]`, i.e.
the lexicographically greatest year string of the record set under Python
string comparison (`charListLt` on the code points).  The fold starts from
`""`, which is below every year, so on the non-empty record sets the
callers guard for, this is the maximum year. -/
def mostRecentYearOf (data : List StartsRecord) : String :=
  (data.map (·.year)).foldl (fun a b => if charListLt a.data b.data then b else a) ""

/-- Character-list version of `str.startswith`: `pfxOf a b` is true iff `a`
is a prefix of `b`. -/
def pfxOf : List Char → List Char → Bool
  | [], _ => true
  | _ :: _, [] => false
  | a :: as, b :: bs => a == b && pfxOf as bs

/-- Character-list check for the Python test `' Q' in s`: does the character
list contain an adjacent `' '`, `'Q'` pair? -/
def hasQSub : List Char → Bool
  | [] => false
  | [_] => false
  | a :: b :: rest => (a == ' ' && b == 'Q') || hasQSub (a :: b :: rest).tail

/-- Embeds `' Q' in year_key` on the string encoding of a key. -/
def keyHasQ (k : PeriodKey) : Bool := hasQSub (keyChars k)

/-- Embeds `year_key.startswith(most_recent_year)` on the string encoding. -/
def keyStartsWith (k : PeriodKey) (mr : String) : Bool :=
  pfxOf mr.data (keyChars k)

/-- Embeds the planner's `sort_key`: a key containing `' Q'` is split there
into `(year_part, int(q_part))`, any other key sorts as `(year_key, 0)`.
For keys whose year string contains no `' Q'` (which is all the source ever
constructs from real data, and which Python requires — two-part `split`
raises otherwise), the split recovers exactly the structural year and
quarter, which is what we return. -/
def sortPair : PeriodKey → String × Nat
  | .base y => (y, 0)
  | .refined y q => (y, q)

/-- Strict lexicographic comparison of the Python sort-key tuples
`(year_string, quarter_int)` (string comparison by code point, as Python
compares strings). -/
def pairLt (a b : String × Nat) : Bool :=
  charListLt a.1.data b.1.data || (a.1 == b.1 && decide (a.2 < b.2))

/-- Stable insertion step of an ascending sort by `sortPair`, matching the
result of Python's stable `sorted(..., key=sort_key)` (the inserted element
goes after smaller-or-equal keys, as `sorted` keeps equal keys in input
order; the planner's key lists are duplicate-free, so the order is in fact
unique). -/
def insertKeyAsc (k : PeriodKey) : List PeriodKey → List PeriodKey
  | [] => [k]
  | k' :: rest =>
      if pairLt (sortPair k') (sortPair k) then k' :: insertKeyAsc k rest
      else k :: k' :: rest

/-- Embeds `sorted(all_year_keys, key=sort_key)`. -/
def sortKeysAsc (ks : List PeriodKey) : List PeriodKey :=
  ks.foldr insertKeyAsc []

/-- Embeds the collection of `all_year_keys` as a duplicate-free list:
`for provider_data in aggregated.values(): all_year_keys.update(...)`.
Python uses a `set`, whose iteration order is immaterial because the planner
immediately sorts it; we gather the keys in matrix order and deduplicate. -/
def allYearKeysOf (agg : AggMatrix) : List PeriodKey :=
  ((agg.map Prod.snd).flatMap (fun d => d.map Prod.fst)).dedup

/-- Embeds
`[key for key in year_keys if key.startswith(most_recent_year) and ' Q' in key]`. -/
def quarterlyKeysOf (ks : List PeriodKey) (mr : String) : List PeriodKey :=
  ks.filter (fun k => keyStartsWith k mr && keyHasQ k)

/-- Embeds the loop building `final_year_keys`: non-quarterly keys are copied,
and the total column (the bare most-recent year) is inserted immediately
before the first quarterly key.  When a `' Q'` key is present while
`quarterly_keys` is empty, Python evaluates `quarterly_keys[0]` and raises
`IndexError`.  In `starts.py` that corner is unreachable (quarterly keys are
only ever created for the most recent year, so a `' Q'` key implies
`quarterly_keys` is non-empty), but in `london_sme.py` it is reachable: the
hard-coded `'202425 Q…'` adjustment keys can coexist with an empty
`quarterly_keys` when the most recent raw year is a different year with no
quarterly records, and then `prepare_london_sme_table_data` raises and
produces no table.  This embedding is total and simply copies the key in
that corner; `londonPlanRaises` captures the raise condition exactly, and
theorems about the rows the london pipeline produces carry
`londonPlanRaises data = false` as a hypothesis. -/
def buildFinalKeys (qks : List PeriodKey) (mr : String) :
    List PeriodKey → List PeriodKey
  | [] => []
  | k :: rest =>
      if !keyHasQ k then k :: buildFinalKeys qks mr rest
      else if qks.head? = some k then
        .base mr :: k :: buildFinalKeys qks mr rest
      else k :: buildFinalKeys qks mr rest

/-- Embeds
`sum(starts for key, starts in year_data.items() if key.startswith(most_recent_year))`,
the most-recent-year total (annual plus quarterly keys) used for threshold
bucketing and for sorting rows. -/
def recentTotal (mr : String) (d : PeriodDict) : Nat :=
  ((d.filter (fun kv => keyStartsWith kv.1 mr)).map Prod.snd).sum

/-- The per-row cell value for one column key, shared by the Total row logic
and the provider-row logic: for the synthetic total column (`year_key ==
most_recent_year`, a string comparison that on keys constructed by the
source coincides with equality to `.base mr`) the cell is the sum of the
dict's values over all quarterly keys; otherwise it is `year_data.get(key, 0)`. -/
def rowValue (mr : String) (qks : List PeriodKey) (d : PeriodDict)
    (k : PeriodKey) : Nat :=
  if k = .base mr then (qks.map (fun q => lookupD q d)).sum
  else lookupD k d

/-- Stable insertion step of a descending sort by a numeric key, matching
Python's stable `list.sort(key=..., reverse=True)` (equal keys keep their
original relative order). -/
def insertDescNat (key : α → Nat) (x : α) : List α → List α
  | [] => [x]
  | y :: ys =>
      if key x < key y then y :: insertDescNat key x ys
      else x :: y :: ys

/-- Stable descending sort by a numeric key (insertion sort; any stable sort
produces the same list as Python's stable `sort(..., reverse=True)`). -/
def sortDescNat (key : α → Nat) (l : List α) : List α :=
  l.foldr (insertDescNat key) []

/-- A table cell, mirroring the mixed `str`/`int` cells of the Python row
lists (the Total row holds bold-marked strings, provider rows hold ints). -/
inductive Cell where
  | str (s : String)
  | num (n : Nat)
deriving DecidableEq, Repr

/-- Embeds `format_academic_year`: keep only the digits; if exactly six
remain, render `YYYY-YY`, otherwise return the input unchanged. -/
def format_academic_year (year : String) : String :=
  let ds := year.data.filter Char.isDigit
  if ds.length = 6 then ⟨ds.take 4 ++ '-' :: ds.drop 4⟩ else year

/-- Embeds the header label of one column:
`format_academic_year(year_key.split(' Q')[0]) + (f" Q{...}" if ' Q' in year_key else '')`
on the structural key (exact for keys whose year contains no `' Q'`). -/
def headerLabel : PeriodKey → String
  | .base y => format_academic_year y
  | .refined y q => format_academic_year y ++ " Q" ++ toString q

/-- `ALWAYS_SHOW_PROVIDERS` from `config.py`. -/
def ALWAYS_SHOW_PROVIDERS : List String := ["FOUNDERS & CODERS"]

/-- `STARTS_MIN_THRESHOLD` from `config.py`. -/
def STARTS_MIN_THRESHOLD : Nat := 3

/-- The most recent year string computed at the top of
`prepare_starts_table_data`. -/
def startsMr (data : List StartsRecord) : String := mostRecentYearOf data

/-- The aggregated matrix of `prepare_starts_table_data`. -/
def startsAgg (data : List StartsRecord) : AggMatrix :=
  aggregate_starts_by_provider_year data (some (startsMr data))

/-- `year_keys = sorted(all_year_keys, key=sort_key)` in
`prepare_starts_table_data`. -/
def startsSortedKeys (data : List StartsRecord) : List PeriodKey :=
  sortKeysAsc (allYearKeysOf (startsAgg data))

/-- `quarterly_keys` in `prepare_starts_table_data`. -/
def startsQKeys (data : List StartsRecord) : List PeriodKey :=
  quarterlyKeysOf (startsSortedKeys data) (startsMr data)

/-- `final_year_keys` (the final ordered column-key list) in
`prepare_starts_table_data`. -/
def startsFinalKeys (data : List StartsRecord) : List PeriodKey :=
  buildFinalKeys (startsQKeys data) (startsMr data) (startsSortedKeys data)

/-- The major/other partition of `prepare_starts_table_data`:
`if recent_starts >= min_starts or provider in ALWAYS_SHOW_PROVIDERS`
appends to `major_providers`, otherwise to `other_providers`. -/
def startsSplit (data : List StartsRecord) (minStarts : Nat) :
    AggMatrix × AggMatrix :=
  (startsAgg data).partition
    (fun pd =>
      minStarts ≤ recentTotal (startsMr data) pd.2
        || decide (pd.1 ∈ ALWAYS_SHOW_PROVIDERS))

/-- `major_providers` after the descending stable sort by most-recent-year
total. -/
def startsMajorsSorted (data : List StartsRecord) (minStarts : Nat) : AggMatrix :=
  sortDescNat (fun pd => recentTotal (startsMr data) pd.2)
    (startsSplit data minStarts).1

/-- `other_providers`. -/
def startsOthers (data : List StartsRecord) (minStarts : Nat) : AggMatrix :=
  (startsSplit data minStarts).2

/-- `year_totals[year_key]` in `prepare_starts_table_data`: for the synthetic
total column, the double sum of all quarterly values over all providers;
otherwise the sum of `provider_data.get(year_key, 0)` over all providers. -/
def startsYearTotals (data : List StartsRecord) (k : PeriodKey) : Nat :=
  if k = .base (startsMr data) then
    ((startsQKeys data).map (fun q =>
      ((startsAgg data).map (fun pd => lookupD q pd.2)).sum)).sum
  else ((startsAgg data).map (fun pd => lookupD k pd.2)).sum

/-- `other_totals[year_key]` in `prepare_starts_table_data` (same shape as
`year_totals`, restricted to `other_providers`). -/
def startsOtherTotals (data : List StartsRecord) (minStarts : Nat)
    (k : PeriodKey) : Nat :=
  if k = .base (startsMr data) then
    ((startsQKeys data).map (fun q =>
      ((startsOthers data minStarts).map (fun pd => lookupD q pd.2)).sum)).sum
  else ((startsOthers data minStarts).map (fun pd => lookupD k pd.2)).sum

/-- The headers of `prepare_starts_table_data` (non-empty-data path). -/
def startsHeaders (data : List StartsRecord) : List String :=
  "Provider" :: (startsFinalKeys data).map headerLabel

/-- The rows of `prepare_starts_table_data` (non-empty-data path): the Total
row first, then the sorted major providers, then — when any exist — the
pooled "All other providers" row. -/
def startsRows (data : List StartsRecord) (minStarts : Nat) : List (List Cell) :=
  let mr := startsMr data
  let qks := startsQKeys data
  let fks := startsFinalKeys data
  (Cell.str "**Total**" ::
      fks.map (fun k => Cell.str ("**" ++ toString (startsYearTotals data k) ++ "**")))
    :: (startsMajorsSorted data minStarts).map (fun pd =>
        Cell.str pd.1 :: fks.map (fun k => Cell.num (rowValue mr qks pd.2 k)))
    ++ (if startsOthers data minStarts ≠ [] then
          [Cell.str "All other providers" ::
            fks.map (fun k => Cell.num (startsOtherTotals data minStarts k))]
        else [])

/-- `fc_name` in `london_sme.py`. -/
def fcName : String := "FOUNDERS & CODERS"

/-- The hard-coded `adjustments` dict of `apply_founders_coders_adjustments`,
in insertion order; the string keys `'202425 Q3'` … are quarterly keys of
year `"202425"`, `'202324'` and `'202223'` plain year keys. -/
def fcAdjustments : List (PeriodKey × Nat) :=
  [(.refined "202425" 3, 1), (.refined "202425" 2, 2), (.refined "202425" 1, 1),
   (.base "202324", 3), (.base "202223", 2)]

/-- Embeds `provider in aggregated`. -/
def containsProv (p : String) (agg : AggMatrix) : Bool :=
  agg.any (fun pd => pd.1 == p)

/-- Embeds `if fc_name not in aggregated: aggregated[fc_name] = {}` (a missing
provider is appended with an empty dict). -/
def ensureProv (p : String) (agg : AggMatrix) : AggMatrix :=
  if containsProv p agg then agg else agg ++ [(p, [])]

/-- Embeds `apply_founders_coders_adjustments`: make sure the FOUNDERS &
CODERS entry exists, then add each hard-coded adjustment in dict order
(each step is `if year_key not in d: d[year_key] = 0; d[year_key] += v`). -/
def apply_founders_coders_adjustments (agg : AggMatrix) : AggMatrix :=
  fcAdjustments.foldl (fun a kv => addToAgg fcName kv.1 kv.2 a)
    (ensureProv fcName agg)

/-- Embeds `aggregated.pop(name, ...)`'s removal effect: drop the (unique)
entry for the given provider. -/
def removeProv (p : String) : AggMatrix → AggMatrix
  | [] => []
  | (p', d) :: rest => if p' = p then rest else (p', d) :: removeProv p rest

/-- `rogue_provider_names` in `prepare_london_sme_table_data`. -/
def rogueNames : List String :=
  ["LONDON COLLEGE OF GLOBAL EDUCATION", "CITY COLLEGE OF LONDON"]

/-- Embeds the rogue-provider extraction loop: for each listed name present
in the matrix, record `(name, popped data)` and remove it; returns the
collected rogue entries and the remaining matrix. -/
def popProvs (names : List String) (agg : AggMatrix) :
    List (String × PeriodDict) × AggMatrix :=
  match names with
  | [] => ([], agg)
  | n :: rest =>
      if containsProv n agg then
        let r := popProvs rest (removeProv n agg)
        ((n, provLookup n agg) :: r.1, r.2)
      else popProvs rest agg

/-- Embeds
`max((starts for key, starts in year_data.items() if ' Q' not in key), default=0)`:
the largest annual (non-quarterly-key) value of a provider's dict. -/
def maxBaseStarts (d : PeriodDict) : Nat :=
  ((d.filter (fun kv => !keyHasQ kv.1)).map Prod.snd).foldl max 0

/-- The most recent year of `prepare_london_sme_table_data`. -/
def londonMr (data : List StartsRecord) : String := mostRecentYearOf data

/-- The matrix after aggregation and FOUNDERS & CODERS adjustments. -/
def londonAgg (data : List StartsRecord) : AggMatrix :=
  apply_founders_coders_adjustments
    (aggregate_starts_by_provider_year data (some (londonMr data)))

/-- `year_keys = sorted(all_year_keys, key=sort_key)` (collected after the
adjustments, so adjustment-only keys become columns too). -/
def londonSortedKeys (data : List StartsRecord) : List PeriodKey :=
  sortKeysAsc (allYearKeysOf (londonAgg data))

/-- `quarterly_keys` in `prepare_london_sme_table_data`. -/
def londonQKeys (data : List StartsRecord) : List PeriodKey :=
  quarterlyKeysOf (londonSortedKeys data) (londonMr data)

/-- `final_year_keys` in `prepare_london_sme_table_data`. -/
def londonFinalKeys (data : List StartsRecord) : List PeriodKey :=
  buildFinalKeys (londonQKeys data) (londonMr data) (londonSortedKeys data)

/-- The condition under which the `final_year_keys` loop of
`prepare_london_sme_table_data` raises `IndexError`: some sorted key
contains `' Q'` (so the `elif key == quarterly_keys[0]` branch is reached)
while `quarterly_keys` is empty, making `quarterly_keys[0]` an out-of-range
index.  When this is `true` the real program raises and produces no table;
when it is `false` the embedding's key list agrees with Python's. -/
def londonPlanRaises (data : List StartsRecord) : Bool :=
  (londonSortedKeys data).any keyHasQ && (londonQKeys data).isEmpty

/-- `fc_data = aggregated.pop(fc_name, {})`. -/
def londonFcData (data : List StartsRecord) : PeriodDict :=
  provLookup fcName (londonAgg data)

/-- The rogue entries popped from the matrix, in `rogue_provider_names`
order. -/
def londonRogues (data : List StartsRecord) : List (String × PeriodDict) :=
  (popProvs rogueNames (removeProv fcName (londonAgg data))).1

/-- The matrix left after popping FOUNDERS & CODERS and the rogue
providers. -/
def londonRest (data : List StartsRecord) : AggMatrix :=
  (popProvs rogueNames (removeProv fcName (londonAgg data))).2

/-- The major/small partition: a provider with `4+` starts in any single
year (quarterly keys excluded) is major. -/
def londonSplit (data : List StartsRecord) : AggMatrix × AggMatrix :=
  (londonRest data).partition (fun pd => decide (4 ≤ maxBaseStarts pd.2))

/-- `major_providers` sorted descending by most-recent-year total. -/
def londonMajorsSorted (data : List StartsRecord) : AggMatrix :=
  sortDescNat (fun pd => recentTotal (londonMr data) pd.2) (londonSplit data).1

/-- `small_providers`. -/
def londonSmalls (data : List StartsRecord) : AggMatrix :=
  (londonSplit data).2

/-- The contributor list `[(fc_name, fc_data)] + major_providers +
small_providers` over which `year_totals` is computed (rogue providers are
already popped and therefore excluded). -/
def londonContribs (data : List StartsRecord) : AggMatrix :=
  (fcName, londonFcData data) :: londonMajorsSorted data ++ londonSmalls data

/-- `year_totals[year_key]` in `prepare_london_sme_table_data`. -/
def londonYearTotals (data : List StartsRecord) (k : PeriodKey) : Nat :=
  if k = .base (londonMr data) then
    ((londonQKeys data).map (fun q =>
      ((londonContribs data).map (fun pd => lookupD q pd.2)).sum)).sum
  else ((londonContribs data).map (fun pd => lookupD k pd.2)).sum

/-- `small_totals[year_key]` (the pooled "All other providers" row). -/
def londonSmallTotals (data : List StartsRecord) (k : PeriodKey) : Nat :=
  if k = .base (londonMr data) then
    ((londonQKeys data).map (fun q =>
      ((londonSmalls data).map (fun pd => lookupD q pd.2)).sum)).sum
  else ((londonSmalls data).map (fun pd => lookupD k pd.2)).sum

/-- The rows of `prepare_london_sme_table_data` (non-empty-data path):
FOUNDERS & CODERS first (when its dict is non-empty — after the adjustments
it always is), then the sorted major providers, then the pooled small-
provider row (when any), then the Total row, then the rogue providers marked
"(closed)". -/
def londonRows (data : List StartsRecord) : List (List Cell) :=
  let mr := londonMr data
  let qks := londonQKeys data
  let fks := londonFinalKeys data
  (if londonFcData data ≠ [] then
      [Cell.str fcName ::
        fks.map (fun k => Cell.num (rowValue mr qks (londonFcData data) k))]
    else [])
  ++ (londonMajorsSorted data).map (fun pd =>
        Cell.str pd.1 :: fks.map (fun k => Cell.num (rowValue mr qks pd.2 k)))
  ++ (if londonSmalls data ≠ [] then
        [Cell.str "All other providers" ::
          fks.map (fun k => Cell.num (londonSmallTotals data k))]
      else [])
  ++ [Cell.str "**Total**" ::
        fks.map (fun k => Cell.str ("**" ++ toString (londonYearTotals data k) ++ "**"))]
  ++ (londonRogues data).map (fun pd =>
        Cell.str (pd.1 ++ " (closed)") ::
          fks.map (fun k => Cell.num (rowValue mr qks pd.2 k)))

/-- Do the first six characters exist and are they all digits?  This is the
match condition of `re.search(r'(\d{4})(\d{2})', filename)` at one starting
position. -/
def checkSix (cs : List Char) : Bool :=
  decide ((cs.take 6).length = 6) && (cs.take 6).all Char.isDigit

/-- The leftmost run of six consecutive digits, as the regex search finds it
(scan starting positions left to right). -/
def findSix : List Char → Option (List Char)
  | [] => none
  | c :: cs => if checkSix (c :: cs) then some ((c :: cs).take 6) else findSix cs

/-- Decimal value of a digit run (`int(...)` on the matched group). -/
def digitsToNat (ds : List Char) : Nat :=
  ds.foldl (fun n c => 10 * n + (c.toNat - 48)) 0

/-- The leftmost match of `re.search(r'-q(\d)', filename, re.IGNORECASE)`:
a literal `'-'`, then `q` or `Q`, then a digit, returned as a number. -/
def findDashQ : List Char → Option Nat
  | a :: b :: c :: rest =>
      if a == '-' && (b == 'q' || b == 'Q') && c.isDigit then
        some (c.toNat - 48)
      else findDashQ (b :: c :: rest)
  | _ => none

/-- Is `pat` a contiguous substring of `cs` (the Python `pat in s` test)? -/
def hasSubL (pat : List Char) : List Char → Bool
  | [] => pfxOf pat []
  | c :: cs => pfxOf pat (c :: cs) || hasSubL pat cs

/-- The `month_map` of `extract_year_quarter_from_filename`, in dict
insertion order (abbreviations first, then full names; `'may'` appears only
once). -/
def monthMap : List (List Char × Nat) :=
  [("jan".data, 1), ("feb".data, 2), ("mar".data, 3), ("apr".data, 4),
   ("may".data, 5), ("jun".data, 6), ("jul".data, 7), ("aug".data, 8),
   ("sep".data, 9), ("oct".data, 10), ("nov".data, 11), ("dec".data, 12),
   ("january".data, 1), ("february".data, 2), ("march".data, 3),
   ("april".data, 4), ("june".data, 6), ("july".data, 7),
   ("august".data, 8), ("september".data, 9), ("october".data, 10),
   ("november".data, 11), ("december".data, 12)]

/-- The month-name scan: the first `month_map` entry (in dict order) whose
name occurs in the lower-cased filename. -/
def findMonth (cs : List Char) : Option Nat :=
  monthMap.findSome? (fun m => if hasSubL m.1 cs then some m.2 else none)

/-- Embeds `extract_year_quarter_from_filename`: locate the leftmost
six-digit run (else return the `(0, 0, 0)` sentinel), take the first four
digits as `year_start` and the last two as `year_end`; prefer a
case-insensitive `-q<digit>` token for the sub-period, else the first month
name contained in the lower-cased filename, else `0`.  Lower-casing is
embedded as `Char.toLower`, which agrees with Python `str.lower()` on the
ASCII filenames in scope. -/
def extract_year_quarter_from_filename (s : String) : Nat × Nat × Nat :=
  match findSix s.data with
  | none => (0, 0, 0)
  | some ds =>
      let ys := digitsToNat (ds.take 4)
      let ye := digitsToNat (ds.drop 4)
      match findDashQ s.data with
      | some q => (ys, ye, q)
      | none =>
          match findMonth (s.data.map Char.toLower) with
          | some m => (ys, ye, m)
          | none => (ys, ye, 0)

/-- Embeds POSIX `os.path.basename`: the part after the last `'/'`. -/
def basenameOf (s : String) : String :=
  ⟨(s.data.reverse.takeWhile (fun c => !(c == '/'))).reverse⟩

/-- Embeds POSIX `os.path.dirname`: the part before the last `'/'` (empty
when there is no slash). -/
def dirnameOf (s : String) : String :=
  ⟨((s.data.reverse.dropWhile (fun c => !(c == '/'))).drop 1).reverse⟩

/-- Embeds POSIX `os.path.join` for the two-argument uses in the source
(second argument never absolute). -/
def joinPath (a b : String) : String :=
  if a = "" then b else a ++ "/" ++ b

/-- The resolver's `sort_key`: year/quarter triple extracted from the file's
basename. -/
def fileSortKey (path : String) : Nat × Nat × Nat :=
  extract_year_quarter_from_filename (basenameOf path)

/-- Strict lexicographic order on the `(year_start, year_end, quarter)`
tuples, as Python compares them. -/
def tripLt (a b : Nat × Nat × Nat) : Bool :=
  decide (a.1 < b.1)
    || (a.1 == b.1
        && (decide (a.2.1 < b.2.1)
            || (a.2.1 == b.2.1 && decide (a.2.2 < b.2.2))))

/-- Stable insertion step of the descending sort
`all_files.sort(key=sort_key, reverse=True)` (equal keys keep their input
order, as Python's stable sort does under `reverse=True`). -/
def insertFileDesc (x : String) : List String → List String
  | [] => [x]
  | y :: ys =>
      if tripLt (fileSortKey x) (fileSortKey y) then y :: insertFileDesc x ys
      else x :: y :: ys

/-- Stable descending sort of candidate paths by `sort_key` (insertion sort;
any stable sort yields the same list as Python's). -/
def sortFilesDesc (l : List String) : List String :=
  l.foldr insertFileDesc []

/-- The selection core of `find_latest_file` once the candidate list is
assembled: `all_files.sort(key=sort_key, reverse=True); return all_files[0]`
when non-empty, `None` otherwise. -/
def findLatestFrom (l : List String) : Option String :=
  (sortFilesDesc l).head?

/-- The filesystem oracle for the resolver: `glob` models `glob.glob` on a
pattern (current-directory relative), `zipNamelist` models
`zipfile.ZipFile(...).namelist()`. -/
structure FileSys where
  glob : String → List String
  zipNamelist : String → List String

/-- Embeds `find_latest_file(file_pattern, folder_prefix, subfolder)`:
candidates are the current-directory glob matches followed by the matches
under each `<folder_prefix>_*/<subfolder>/` folder; the newest by
`(year_start, year_end, quarter)` wins, ties to the earlier candidate. -/
def find_latest_file (fs : FileSys) (filePattern folderPfx subfolder : String) :
    Option String :=
  let rootFiles := fs.glob filePattern
  let folders := fs.glob (folderPfx ++ "_*")
  let allFiles := rootFiles
    ++ folders.flatMap (fun folder =>
        fs.glob (folder ++ "/" ++ subfolder ++ "/" ++ filePattern))
  findLatestFrom allFiles

/-- Embeds `extract_from_zip_if_needed(zip_pattern, folder_prefix,
subfolder)`: candidate archives come only from the versioned subfolder
globs (there is no current-directory glob here, unlike
`find_latest_file`); the newest archive is picked with the same key, and
the path of its first `.csv` member (relative to the archive's directory)
is returned.  The archive extraction side effect is outside the embedding;
we return the path the function would return. -/
def extract_from_zip_if_needed (fs : FileSys)
    (zipPattern folderPfx subfolder : String) : Option String :=
  let folders := fs.glob (folderPfx ++ "_*")
  let allZips := folders.flatMap (fun folder =>
    fs.glob (folder ++ "/" ++ subfolder ++ "/" ++ zipPattern))
  match findLatestFrom allZips with
  | none => none
  | some zf =>
      match (fs.zipNamelist zf).filter (fun n => n.endsWith ".csv") with
      | [] => none
      | c :: _ => some (joinPath (dirnameOf zf) c)

/-- Modelled from the spec (§4.1): the resolver's contract, stated in the
spec's own words — "select the one whose `(yearStart, yearEnd, subPeriod)`
tuple is lexicographically greatest; ties broken by whichever file was
discovered first"; "If no candidates, report not found". -/
def specSelectLatest : List String → Option String
  | [] => none
  | x :: xs =>
      match specSelectLatest xs with
      | none => some x
      | some y =>
          if tripLt (fileSortKey x) (fileSortKey y) then some y else some x

/-- The spec's notion of a filename containing a run of six consecutive
digits. -/
def HasSixDigitRun (cs : List Char) : Prop :=
  ∃ pre run post, cs = pre ++ run ++ post ∧ run.length = 6 ∧
    ∀ c ∈ run, c.isDigit

/-- Well-formedness of a record set's year strings for the structural key
embedding: no year contains the substring `" Q"` (Python's two-part
`year_key.split(' Q')` would raise on such a year anyway). -/
abbrev WFnoQ (data : List StartsRecord) : Prop :=
  ∀ r ∈ data, hasQSub r.year.data = false

/-- Is the key a quarterly (refined) key, structurally?  (Proof-side helper:
under `WFnoQ` this coincides with the Python `' Q' in key` test.) -/
def keyIsRefined : PeriodKey → Bool
  | .base _ => false
  | .refined _ _ => true

/-- Proof-side helper: the sum of a dict's values over its quarterly-key
entries. -/
def refinedSum (d : PeriodDict) : Nat :=
  ((d.filter (fun kv => keyIsRefined kv.1)).map Prod.snd).sum

/-- Proof-side helper: the multiset of keys of a matrix, in matrix order,
before deduplication. -/
def keysOfAgg (agg : AggMatrix) : List PeriodKey :=
  (agg.map Prod.snd).flatMap (fun d => d.map Prod.fst)

theorem sum_map_zero (l : List α) : (l.map (fun _ => (0 : Nat))).sum = 0 := by
  induction l with
  | nil => rfl
  | cons a l ih => simp [ih]

theorem sum_map_add (l : List α) (f g : α → Nat) :
    (l.map (fun a => f a + g a)).sum = (l.map f).sum + (l.map g).sum := by
  induction l with
  | nil => rfl
  | cons a l ih => simp [ih]; omega

theorem sum_map_comm (l : List α) (m : List β) (f : α → β → Nat) :
    (l.map (fun a => (m.map (fun b => f a b)).sum)).sum
      = (m.map (fun b => (l.map (fun a => f a b)).sum)).sum := by
  induction l with
  | nil => simp [sum_map_zero]
  | cons a l ih => simp only [List.map_cons, List.sum_cons, ih, sum_map_add]

theorem sum_filter_split (l : List α) (p : α → Bool) (f : α → Nat) :
    ((l.filter p).map f).sum + ((l.filter (fun a => !(p a))).map f).sum
      = (l.map f).sum := by
  induction l with
  | nil => rfl
  | cons a l ih =>
    by_cases h : p a = true
    · simp [List.filter_cons, h]; omega
    · simp only [Bool.not_eq_true] at h
      simp [List.filter_cons, h]; omega

theorem insertDescNat_perm (key : α → Nat) (x : α) (l : List α) :
    (insertDescNat key x l).Perm (x :: l) := by
  induction l with
  | nil => exact List.Perm.refl _
  | cons y ys ih =>
    by_cases h : key x < key y
    · simp only [insertDescNat, if_pos h]
      exact (ih.cons y).trans (List.Perm.swap x y ys)
    · simp only [insertDescNat, if_neg h]
      exact List.Perm.refl _

theorem sortDescNat_perm (key : α → Nat) (l : List α) :
    (sortDescNat key l).Perm l := by
  induction l with
  | nil => exact List.Perm.refl _
  | cons x xs ih =>
    exact (insertDescNat_perm key x (sortDescNat key xs)).trans (ih.cons x)

theorem insertDescNat_pairwise (key : α → Nat) (x : α) (l : List α)
    (h : List.Pairwise (fun a b => key b ≤ key a) l) :
    List.Pairwise (fun a b => key b ≤ key a) (insertDescNat key x l) := by
  induction l with
  | nil => simp [insertDescNat]
  | cons y ys ih =>
    rcases List.pairwise_cons.mp h with ⟨hy, hys⟩
    by_cases hlt : key x < key y
    · simp only [insertDescNat, if_pos hlt]
      refine List.pairwise_cons.mpr ⟨?_, ih hys⟩
      intro z hz
      have hz2 := (insertDescNat_perm key x ys).mem_iff.mp hz
      rcases List.mem_cons.mp hz2 with hz2 | hz2
      · subst hz2; omega
      · exact hy z hz2
    · simp only [insertDescNat, if_neg hlt]
      refine List.pairwise_cons.mpr ⟨?_, h⟩
      intro z hz
      rcases hz with _ | hz
      · omega
      · have := hy z (by assumption)
        omega

theorem sortDescNat_pairwise (key : α → Nat) (l : List α) :
    List.Pairwise (fun a b => key b ≤ key a) (sortDescNat key l) := by
  induction l with
  | nil => exact List.Pairwise.nil
  | cons x xs ih => exact insertDescNat_pairwise key x _ ih

theorem insertKeyAsc_perm (k : PeriodKey) (l : List PeriodKey) :
    (insertKeyAsc k l).Perm (k :: l) := by
  induction l with
  | nil => exact List.Perm.refl _
  | cons y ys ih =>
    by_cases h : pairLt (sortPair y) (sortPair k) = true
    · simp only [insertKeyAsc, if_pos h]
      exact (ih.cons y).trans (List.Perm.swap k y ys)
    · simp only [insertKeyAsc, if_neg h]
      exact List.Perm.refl _

theorem sortKeysAsc_perm (l : List PeriodKey) : (sortKeysAsc l).Perm l := by
  induction l with
  | nil => exact List.Perm.refl _
  | cons x xs ih =>
    exact (insertKeyAsc_perm x (sortKeysAsc xs)).trans (ih.cons x)

theorem lookupD_cons (k0 k : PeriodKey) (v : Nat) (d : PeriodDict) :
    lookupD k0 ((k, v) :: d) = if k = k0 then v else lookupD k0 d := rfl

theorem addToAssoc_cons_eq (k v k' v' : _) (rest : PeriodDict) (h : k' = k) :
    addToAssoc k v ((k', v') :: rest) = (k', v' + v) :: rest := by
  simp only [addToAssoc]; rw [if_pos h]

theorem addToAssoc_cons_ne (k v k' v' : _) (rest : PeriodDict) (h : ¬k' = k) :
    addToAssoc k v ((k', v') :: rest) = (k', v') :: addToAssoc k v rest := by
  simp only [addToAssoc]; rw [if_neg h]

theorem lookupD_addToAssoc (k0 k : PeriodKey) (v : Nat) (d : PeriodDict) :
    lookupD k0 (addToAssoc k v d) = lookupD k0 d + (if k = k0 then v else 0) := by
  induction d with
  | nil =>
    show lookupD k0 [(k, v)] = lookupD k0 [] + _
    rw [lookupD_cons]
    by_cases h0 : k = k0
    · rw [if_pos h0, if_pos h0]; simp [lookupD]
    · rw [if_neg h0, if_neg h0]; rfl
  | cons kv rest ih =>
    obtain ⟨k', v'⟩ := kv
    by_cases hk : k' = k
    · rw [addToAssoc_cons_eq _ _ _ _ _ hk, lookupD_cons, lookupD_cons]
      by_cases h0 : k' = k0
      · rw [if_pos h0, if_pos h0, if_pos (hk ▸ h0)]
      · rw [if_neg h0, if_neg h0, if_neg (hk ▸ h0), Nat.add_zero]
    · rw [addToAssoc_cons_ne _ _ _ _ _ hk, lookupD_cons, lookupD_cons, ih]
      by_cases h0 : k' = k0
      · have hne : ¬k = k0 := fun h => hk (h0.trans h.symm)
        rw [if_pos h0, if_pos h0, if_neg hne, Nat.add_zero]
      · rw [if_neg h0, if_neg h0]

theorem refinedSum_nil : refinedSum [] = 0 := rfl

theorem refinedSum_cons (k : PeriodKey) (v : Nat) (d : PeriodDict) :
    refinedSum ((k, v) :: d)
      = (if keyIsRefined k then v else 0) + refinedSum d := by
  by_cases h : keyIsRefined k = true <;> simp [refinedSum, List.filter_cons, h]

theorem refinedSum_addToAssoc (k : PeriodKey) (v : Nat) (d : PeriodDict) :
    refinedSum (addToAssoc k v d)
      = refinedSum d + (if keyIsRefined k then v else 0) := by
  induction d with
  | nil =>
    show refinedSum [(k, v)] = refinedSum [] + _
    rw [refinedSum_cons, refinedSum_nil]
    omega
  | cons kv rest ih =>
    obtain ⟨k', v'⟩ := kv
    by_cases hk : k' = k
    · rw [addToAssoc_cons_eq _ _ _ _ _ hk, refinedSum_cons, refinedSum_cons, hk]
      by_cases h : keyIsRefined k = true
      · rw [if_pos h, if_pos h, if_pos h]; omega
      · rw [if_neg h, if_neg h, if_neg h]; omega
    · rw [addToAssoc_cons_ne _ _ _ _ _ hk, refinedSum_cons, refinedSum_cons, ih]
      omega

theorem assocFst_addToAssoc_mem {k0 k : PeriodKey} {v : Nat} {d : PeriodDict}
    (h : k0 ∈ (addToAssoc k v d).map Prod.fst) :
    k0 = k ∨ k0 ∈ d.map Prod.fst := by
  induction d with
  | nil =>
    simp only [addToAssoc, List.map_cons, List.map_nil, List.mem_singleton] at h
    exact Or.inl h
  | cons kv rest ih =>
    obtain ⟨k', v'⟩ := kv
    by_cases hk : k' = k
    · rw [addToAssoc_cons_eq _ _ _ _ _ hk] at h
      exact Or.inr (by simpa using h)
    · rw [addToAssoc_cons_ne _ _ _ _ _ hk] at h
      simp only [List.map_cons, List.mem_cons] at h
      rcases h with h1 | h1
      · exact Or.inr (by simp [h1])
      · rcases ih h1 with h2 | h2
        · exact Or.inl h2
        · exact Or.inr (by simp [h2])

theorem nodupKeys_addToAssoc {k : PeriodKey} {v : Nat} {d : PeriodDict}
    (h : (d.map Prod.fst).Nodup) :
    ((addToAssoc k v d).map Prod.fst).Nodup := by
  induction d with
  | nil => simp [addToAssoc]
  | cons kv rest ih =>
    obtain ⟨k', v'⟩ := kv
    simp only [List.map_cons, List.nodup_cons] at h
    by_cases hk : k' = k
    · rw [addToAssoc_cons_eq _ _ _ _ _ hk]
      simp only [List.map_cons, List.nodup_cons]
      exact ⟨h.1, h.2⟩
    · rw [addToAssoc_cons_ne _ _ _ _ _ hk]
      simp only [List.map_cons, List.nodup_cons]
      refine ⟨?_, ih h.2⟩
      intro hmem
      rcases assocFst_addToAssoc_mem hmem with h1 | h1
      · exact hk h1
      · exact h.1 h1

theorem lookupD_eq_zero_of_not_mem {k : PeriodKey} {d : PeriodDict}
    (h : k ∉ d.map Prod.fst) : lookupD k d = 0 := by
  induction d with
  | nil => rfl
  | cons kv rest ih =>
    obtain ⟨k', v'⟩ := kv
    simp only [List.map_cons, List.mem_cons, not_or] at h
    rw [lookupD_cons, if_neg (fun hh : k' = k => h.1 hh.symm)]
    exact ih h.2

theorem addToAgg_cons_eq (p k v p' : _) (d : PeriodDict) (rest : AggMatrix)
    (h : p' = p) :
    addToAgg p k v ((p', d) :: rest) = (p', addToAssoc k v d) :: rest := by
  simp only [addToAgg]; rw [if_pos h]

theorem addToAgg_cons_ne (p k v p' : _) (d : PeriodDict) (rest : AggMatrix)
    (h : ¬p' = p) :
    addToAgg p k v ((p', d) :: rest) = (p', d) :: addToAgg p k v rest := by
  simp only [addToAgg]; rw [if_neg h]

theorem provLookup_cons (p p' : String) (d : PeriodDict) (rest : AggMatrix) :
    provLookup p ((p', d) :: rest)
      = if p' = p then d else provLookup p rest := rfl

theorem provLookup_addToAgg (p' p : String) (k : PeriodKey) (v : Nat)
    (agg : AggMatrix) :
    provLookup p (addToAgg p' k v agg)
      = if p' = p then addToAssoc k v (provLookup p agg)
        else provLookup p agg := by
  induction agg with
  | nil =>
    show provLookup p [(p', [(k, v)])] = _
    rw [provLookup_cons]
    by_cases h : p' = p
    · rw [if_pos h, if_pos h]; rfl
    · rw [if_neg h, if_neg h]
  | cons pd rest ih =>
    obtain ⟨p'', d⟩ := pd
    by_cases h1 : p'' = p'
    · rw [addToAgg_cons_eq _ _ _ _ _ _ h1, provLookup_cons, provLookup_cons]
      by_cases h2 : p'' = p
      · rw [if_pos h2, if_pos h2, if_pos (h1 ▸ h2)]
      · rw [if_neg h2, if_neg h2, if_neg (h1 ▸ h2)]
    · rw [addToAgg_cons_ne _ _ _ _ _ _ h1, provLookup_cons, provLookup_cons, ih]
      by_cases h2 : p'' = p
      · have : ¬p' = p := fun h => h1 (h2.trans h.symm)
        rw [if_pos h2, if_pos h2, if_neg this]
      · rw [if_neg h2, if_neg h2]

theorem provFst_addToAgg_mem {q p : String} {k : PeriodKey} {v : Nat}
    {agg : AggMatrix} (h : q ∈ (addToAgg p k v agg).map Prod.fst) :
    q = p ∨ q ∈ agg.map Prod.fst := by
  induction agg with
  | nil => simp only [addToAgg, List.map_cons, List.map_nil,
      List.mem_singleton] at h; exact Or.inl h
  | cons pd rest ih =>
    obtain ⟨p', d⟩ := pd
    by_cases h1 : p' = p
    · rw [addToAgg_cons_eq _ _ _ _ _ _ h1] at h
      exact Or.inr (by simpa using h)
    · rw [addToAgg_cons_ne _ _ _ _ _ _ h1] at h
      simp only [List.map_cons, List.mem_cons] at h
      rcases h with h2 | h2
      · exact Or.inr (by simp [h2])
      · rcases ih h2 with h3 | h3
        · exact Or.inl h3
        · exact Or.inr (by simp [h3])

theorem nodup_provFst_addToAgg {p : String} {k : PeriodKey} {v : Nat}
    {agg : AggMatrix} (h : (agg.map Prod.fst).Nodup) :
    ((addToAgg p k v agg).map Prod.fst).Nodup := by
  induction agg with
  | nil => simp [addToAgg]
  | cons pd rest ih =>
    obtain ⟨p', d⟩ := pd
    simp only [List.map_cons, List.nodup_cons] at h
    by_cases h1 : p' = p
    · rw [addToAgg_cons_eq _ _ _ _ _ _ h1]
      simp only [List.map_cons, List.nodup_cons]
      exact ⟨h.1, h.2⟩
    · rw [addToAgg_cons_ne _ _ _ _ _ _ h1]
      simp only [List.map_cons, List.nodup_cons]
      refine ⟨?_, ih h.2⟩
      intro hmem
      rcases provFst_addToAgg_mem hmem with h2 | h2
      · exact h1 h2
      · exact h.1 h2

theorem entry_eq_of_nodup_fst {agg : AggMatrix}
    (h : (agg.map Prod.fst).Nodup) {a b : String × PeriodDict}
    (ha : a ∈ agg) (hb : b ∈ agg) (hfst : a.1 = b.1) : a = b := by
  induction agg with
  | nil => cases ha
  | cons pd rest ih =>
    simp only [List.map_cons, List.nodup_cons] at h
    rcases List.mem_cons.mp ha with ha1 | ha1 <;>
      rcases List.mem_cons.mp hb with hb1 | hb1
    · exact ha1.trans hb1.symm
    · exfalso
      apply h.1
      have hb2 : b.1 ∈ List.map Prod.fst rest := List.mem_map_of_mem Prod.fst hb1
      rw [ha1] at hfst
      rw [hfst]
      exact hb2
    · exfalso
      apply h.1
      have ha2 : a.1 ∈ List.map Prod.fst rest := List.mem_map_of_mem Prod.fst ha1
      rw [hb1] at hfst
      rw [← hfst]
      exact ha2
    · exact ih h.2 ha1 hb1

theorem provLookup_eq_of_mem {agg : AggMatrix}
    (h : (agg.map Prod.fst).Nodup) {p : String} {d : PeriodDict}
    (hm : (p, d) ∈ agg) : provLookup p agg = d := by
  induction agg with
  | nil => cases hm
  | cons pd rest ih =>
    obtain ⟨p', d'⟩ := pd
    simp only [List.map_cons, List.nodup_cons] at h
    rcases List.mem_cons.mp hm with h1 | h1
    · injection h1 with hp hd
      rw [provLookup_cons, if_pos hp.symm]
      exact hd.symm
    · have hne : ¬p' = p := by
        intro he
        exact h.1 (he ▸ List.mem_map_of_mem Prod.fst h1)
      rw [provLookup_cons, if_neg hne]
      exact ih h.2 h1

theorem provLookup_eq_nil_of_not_mem {agg : AggMatrix} {p : String}
    (h : p ∉ agg.map Prod.fst) : provLookup p agg = [] := by
  induction agg with
  | nil => rfl
  | cons pd rest ih =>
    obtain ⟨p', d'⟩ := pd
    simp only [List.map_cons, List.mem_cons, not_or] at h
    rw [provLookup_cons, if_neg (fun hh : p' = p => h.1 hh.symm)]
    exact ih h.2

theorem mem_keysOfAgg_of_mem_provLookup {kv : PeriodKey × Nat} {p : String}
    {agg : AggMatrix} (h : kv ∈ provLookup p agg) :
    kv.1 ∈ keysOfAgg agg := by
  induction agg with
  | nil => cases h
  | cons pd rest ih =>
    obtain ⟨p', d'⟩ := pd
    by_cases h1 : p' = p
    · rw [provLookup_cons, if_pos h1] at h
      simp only [keysOfAgg, List.map_cons, List.flatMap_cons, List.mem_append]
      exact Or.inl (List.mem_map_of_mem Prod.fst h)
    · rw [provLookup_cons, if_neg h1] at h
      simp only [keysOfAgg, List.map_cons, List.flatMap_cons, List.mem_append]
      exact Or.inr (ih h)

theorem keysOfAgg_addToAgg {k0 k : PeriodKey} {p : String} {v : Nat}
    {agg : AggMatrix} (h : k0 ∈ keysOfAgg (addToAgg p k v agg)) :
    k0 = k ∨ k0 ∈ keysOfAgg agg := by
  induction agg with
  | nil =>
    simp only [addToAgg, keysOfAgg, List.map_cons, List.map_nil,
      List.flatMap_cons, List.flatMap_nil, List.append_nil,
      List.mem_singleton] at h
    exact Or.inl h
  | cons pd rest ih =>
    obtain ⟨p', d'⟩ := pd
    by_cases h1 : p' = p
    · rw [addToAgg_cons_eq _ _ _ _ _ _ h1] at h
      simp only [keysOfAgg, List.map_cons, List.flatMap_cons,
        List.mem_append] at h ⊢
      rcases h with h2 | h2
      · rcases List.mem_map.mp h2 with ⟨kv, hkv, hfst⟩
        rcases assocFst_addToAssoc_mem (hfst ▸ List.mem_map_of_mem Prod.fst hkv)
          with h3 | h3
        · exact Or.inl h3
        · exact Or.inr (Or.inl h3)
      · exact Or.inr (Or.inr h2)
    · rw [addToAgg_cons_ne _ _ _ _ _ _ h1] at h
      simp only [keysOfAgg, List.map_cons, List.flatMap_cons,
        List.mem_append] at h ⊢
      rcases h with h2 | h2
      · exact Or.inr (Or.inl h2)
      · rcases ih h2 with h3 | h3
        · exact Or.inl h3
        · exact Or.inr (Or.inr h3)

theorem keysOfAgg_foldl_shape (mr : Option String) (data : List StartsRecord) :
    ∀ (init : AggMatrix) (k : PeriodKey),
      k ∈ keysOfAgg (data.foldl (addRecord mr) init) →
      k ∈ keysOfAgg init ∨ ∃ r ∈ data, k = periodKeyFor mr r.year r.quarter := by
  induction data with
  | nil => intro init k h; exact Or.inl h
  | cons r rest ih =>
    intro init k h
    rcases ih (addRecord mr init r) k h with h1 | h1
    · rcases keysOfAgg_addToAgg h1 with h2 | h2
      · exact Or.inr ⟨r, List.mem_cons_self r rest, h2⟩
      · exact Or.inl h2
    · rcases h1 with ⟨r', hr', hk⟩
      exact Or.inr ⟨r', List.mem_cons_of_mem r hr', hk⟩

theorem provFst_foldl (mr : Option String) (data : List StartsRecord) :
    ∀ (init : AggMatrix) (q : String),
      q ∈ (data.foldl (addRecord mr) init).map Prod.fst →
      q ∈ init.map Prod.fst ∨ ∃ r ∈ data, q = r.provider := by
  induction data with
  | nil => intro init q h; exact Or.inl h
  | cons r rest ih =>
    intro init q h
    rcases ih (addRecord mr init r) q h with h1 | h1
    · rcases provFst_addToAgg_mem h1 with h2 | h2
      · exact Or.inr ⟨r, List.mem_cons_self r rest, h2⟩
      · exact Or.inl h2
    · rcases h1 with ⟨r', hr', hk⟩
      exact Or.inr ⟨r', List.mem_cons_of_mem r hr', hk⟩

theorem nodup_provFst_foldl (mr : Option String) (data : List StartsRecord) :
    ∀ (init : AggMatrix), (init.map Prod.fst).Nodup →
      ((data.foldl (addRecord mr) init).map Prod.fst).Nodup := by
  induction data with
  | nil => intro init h; exact h
  | cons r rest ih =>
    intro init h
    exact ih (addRecord mr init r) (nodup_provFst_addToAgg h)

theorem nodup_provFst_aggregate (data : List StartsRecord) (mr : Option String) :
    ((aggregate_starts_by_provider_year data mr).map Prod.fst).Nodup :=
  nodup_provFst_foldl mr data [] List.nodup_nil

theorem innerNodup_addToAgg {p : String} {k : PeriodKey} {v : Nat}
    {agg : AggMatrix} (h : ∀ pd ∈ agg, (pd.2.map Prod.fst).Nodup) :
    ∀ pd ∈ addToAgg p k v agg, (pd.2.map Prod.fst).Nodup := by
  induction agg with
  | nil =>
    intro pd hpd
    simp only [addToAgg, List.mem_singleton] at hpd
    subst hpd; simp
  | cons pd0 rest ih =>
    obtain ⟨p', d⟩ := pd0
    intro pd hpd
    by_cases h1 : p' = p
    · rw [addToAgg_cons_eq _ _ _ _ _ _ h1] at hpd
      rcases List.mem_cons.mp hpd with h2 | h2
      · subst h2
        exact nodupKeys_addToAssoc (h (p', d) (List.mem_cons_self _ _))
      · exact h pd (List.mem_cons_of_mem _ h2)
    · rw [addToAgg_cons_ne _ _ _ _ _ _ h1] at hpd
      rcases List.mem_cons.mp hpd with h2 | h2
      · subst h2; exact h (p', d) (List.mem_cons_self _ _)
      · exact ih (fun pd' hpd' => h pd' (List.mem_cons_of_mem _ hpd')) pd h2

theorem innerNodup_foldl (mr : Option String) (data : List StartsRecord) :
    ∀ (init : AggMatrix), (∀ pd ∈ init, (pd.2.map Prod.fst).Nodup) →
      ∀ pd ∈ data.foldl (addRecord mr) init, (pd.2.map Prod.fst).Nodup := by
  induction data with
  | nil => intro init h; exact h
  | cons r rest ih =>
    intro init h
    exact ih (addRecord mr init r) (innerNodup_addToAgg h)

theorem provLookup_cases (p : String) (agg : AggMatrix) :
    provLookup p agg = [] ∨ (p, provLookup p agg) ∈ agg := by
  induction agg with
  | nil => exact Or.inl rfl
  | cons pd rest ih =>
    obtain ⟨p', d⟩ := pd
    by_cases h1 : p' = p
    · right
      rw [provLookup_cons, if_pos h1, ← h1]
      exact List.mem_cons_self _ _
    · rw [provLookup_cons, if_neg h1]
      rcases ih with h2 | h2
      · exact Or.inl h2
      · exact Or.inr (List.mem_cons_of_mem _ h2)

theorem nodupKeys_provLookup_aggregate (p : String) (data : List StartsRecord)
    (mr : Option String) :
    ((provLookup p (aggregate_starts_by_provider_year data mr)).map
      Prod.fst).Nodup := by
  rcases provLookup_cases p (aggregate_starts_by_provider_year data mr) with h | h
  · rw [h]; exact List.nodup_nil
  · exact innerNodup_foldl mr data [] (by intro pd hpd; cases hpd) _ h

theorem pfxOf_append_self (a b : List Char) : pfxOf a (a ++ b) = true := by
  induction a with
  | nil => rfl
  | cons c cs ih => simp [pfxOf, ih]

theorem hasQSub_append_spaceQ (l r : List Char) :
    hasQSub (l ++ ' ' :: 'Q' :: r) = true := by
  induction l with
  | nil => simp [hasQSub]
  | cons c cs ih =>
    cases cs with
    | nil => simp [hasQSub]
    | cons c2 cs' => simpa [hasQSub] using Or.inr ih

theorem keyHasQ_refined (y : String) (q : Nat) :
    keyHasQ (.refined y q) = true := by
  simp only [keyHasQ, keyChars]
  exact hasQSub_append_spaceQ y.data (toString q).data

theorem keyHasQ_base (y : String) : keyHasQ (.base y) = hasQSub y.data := rfl

theorem keyStartsWith_refined_self (y : String) (q : Nat) :
    keyStartsWith (.refined y q) y = true := by
  simp only [keyStartsWith, keyChars]
  exact pfxOf_append_self y.data (' ' :: 'Q' :: (toString q).data)

theorem keyIsRefined_not_base {k : PeriodKey} (h : keyIsRefined k = true) :
    ∃ y q, k = .refined y q := by
  cases k with
  | base y => cases h
  | refined y q => exact ⟨y, q, rfl⟩

theorem periodKeyFor_some (m y : String) (q : Nat) :
    (m ≠ "" ∧ y = m ∧ 0 < q ∧ periodKeyFor (some m) y q = .refined m q)
    ∨ (¬(m ≠ "" ∧ y = m ∧ 0 < q) ∧ periodKeyFor (some m) y q = .base y) := by
  by_cases h1 : m = ""
  · right
    refine ⟨by tauto, ?_⟩
    subst h1
    simp [periodKeyFor]
  · by_cases h2 : y = m
    · by_cases h3 : 0 < q
      · left
        subst h2
        exact ⟨h1, rfl, h3, by simp [periodKeyFor, h1, h3]⟩
      · right
        refine ⟨by tauto, ?_⟩
        simp [periodKeyFor, h3]
    · right
      refine ⟨by tauto, ?_⟩
      simp [periodKeyFor, h2]

theorem periodKeyFor_none (y : String) (q : Nat) :
    periodKeyFor none y q = .base y := by
  simp [periodKeyFor]

theorem starts_key_shape {data : List StartsRecord} {k : PeriodKey}
    (h : k ∈ keysOfAgg (startsAgg data)) :
    (∃ r ∈ data, k = .base r.year
        ∧ ¬(startsMr data ≠ "" ∧ r.year = startsMr data ∧ 0 < r.quarter))
    ∨ (∃ r ∈ data, 0 < r.quarter ∧ r.year = startsMr data
        ∧ startsMr data ≠ "" ∧ k = .refined (startsMr data) r.quarter) := by
  rcases keysOfAgg_foldl_shape (some (startsMr data)) data [] k h with h1 | h1
  · cases h1
  · rcases h1 with ⟨r, hr, hk⟩
    rcases periodKeyFor_some (startsMr data) r.year r.quarter with h2 | h2
    · right
      exact ⟨r, hr, h2.2.2.1, h2.2.1, h2.1, hk.trans h2.2.2.2⟩
    · left
      exact ⟨r, hr, hk.trans h2.2, h2.1⟩

theorem mem_startsSortedKeys_iff {data : List StartsRecord} {k : PeriodKey} :
    k ∈ startsSortedKeys data ↔ k ∈ keysOfAgg (startsAgg data) := by
  unfold startsSortedKeys allYearKeysOf
  rw [(sortKeysAsc_perm _).mem_iff, List.mem_dedup]
  rfl

theorem nodup_startsSortedKeys (data : List StartsRecord) :
    (startsSortedKeys data).Nodup := by
  unfold startsSortedKeys allYearKeysOf
  exact ((sortKeysAsc_perm _).nodup_iff).mpr (List.nodup_dedup _)

theorem starts_hasQ_refined {data : List StartsRecord} {k : PeriodKey}
    (wf : WFnoQ data) (hk : k ∈ keysOfAgg (startsAgg data))
    (hq : keyHasQ k = true) :
    ∃ n, 0 < n ∧ k = .refined (startsMr data) n ∧ startsMr data ≠ "" := by
  rcases starts_key_shape hk with h1 | h1
  · rcases h1 with ⟨r, hr, hk', _⟩
    rw [hk', keyHasQ_base, wf r hr] at hq
    cases hq
  · rcases h1 with ⟨r, hr, hq', hy, hm, hk'⟩
    exact ⟨r.quarter, hq', hk', hm⟩

theorem mem_startsQKeys_of_refined {data : List StartsRecord} {n : Nat}
    (hs : PeriodKey.refined (startsMr data) n ∈ startsSortedKeys data) :
    PeriodKey.refined (startsMr data) n ∈ startsQKeys data := by
  unfold startsQKeys quarterlyKeysOf
  rw [List.mem_filter]
  exact ⟨hs, by rw [keyStartsWith_refined_self, keyHasQ_refined]; rfl⟩

theorem mem_startsQKeys_elim {data : List StartsRecord} {q : PeriodKey}
    (wf : WFnoQ data) (h : q ∈ startsQKeys data) :
    q ∈ startsSortedKeys data
      ∧ ∃ n, 0 < n ∧ q = .refined (startsMr data) n := by
  unfold startsQKeys quarterlyKeysOf at h
  rw [List.mem_filter] at h
  have hq : keyHasQ q = true := by
    rcases Bool.and_eq_true_iff.mp h.2 with ⟨_, h2⟩
    exact h2
  rcases starts_hasQ_refined wf (mem_startsSortedKeys_iff.mp h.1) hq
    with ⟨n, hn, hk, _⟩
  exact ⟨h.1, n, hn, hk⟩

theorem startsQKeys_refined_all {data : List StartsRecord} {q : PeriodKey}
    (wf : WFnoQ data) (h : q ∈ startsQKeys data) : keyIsRefined q = true := by
  rcases mem_startsQKeys_elim wf h with ⟨_, n, _, hk⟩
  rw [hk]; rfl

theorem nodup_startsQKeys (data : List StartsRecord) :
    (startsQKeys data).Nodup :=
  (nodup_startsSortedKeys data).filter _

theorem provDict_refined_mem_qks {data : List StartsRecord} {p : String}
    {kv : PeriodKey × Nat}
    (hm : kv ∈ provLookup p (startsAgg data))
    (hr : keyIsRefined kv.1 = true) : kv.1 ∈ startsQKeys data := by
  have hk : kv.1 ∈ keysOfAgg (startsAgg data) :=
    mem_keysOfAgg_of_mem_provLookup hm
  rcases starts_key_shape hk with h1 | h1
  · rcases h1 with ⟨r, _, hk', _⟩
    rw [hk'] at hr
    cases hr
  · rcases h1 with ⟨r, hr', hq, hy, hm', hk'⟩
    rw [hk']
    exact mem_startsQKeys_of_refined (mem_startsSortedKeys_iff.mpr (hk' ▸ hk))

theorem sum_map_if_eq (K : List PeriodKey) (k : PeriodKey) (v : Nat)
    (hnd : K.Nodup) :
    (K.map (fun q => if q = k then v else 0)).sum
      = if k ∈ K then v else 0 := by
  induction K with
  | nil => simp
  | cons q K' ih =>
    simp only [List.nodup_cons] at hnd
    by_cases hq : q = k
    · subst hq
      rw [List.map_cons, List.sum_cons, if_pos rfl, ih hnd.2,
        if_neg hnd.1, if_pos (List.mem_cons_self _ _)]
      omega
    · rw [List.map_cons, List.sum_cons, if_neg hq, ih hnd.2]
      by_cases hk : k ∈ K'
      · rw [if_pos hk, if_pos (List.mem_cons_of_mem _ hk)]
        omega
      · rw [if_neg hk, if_neg (by
          intro hm
          rcases List.mem_cons.mp hm with h1 | h1
          · exact hq h1.symm
          · exact hk h1)]

theorem sum_lookup_eq_refinedSum {K : List PeriodKey} {d : PeriodDict}
    (hnd : K.Nodup) (href : ∀ q ∈ K, keyIsRefined q = true)
    (hcov : ∀ kv ∈ d, keyIsRefined kv.1 = true → kv.1 ∈ K)
    (hdnd : (d.map Prod.fst).Nodup) :
    (K.map (fun q => lookupD q d)).sum = refinedSum d := by
  induction d with
  | nil =>
    have : K.map (fun q => lookupD q ([] : PeriodDict)) = K.map (fun _ => 0) := by
      apply List.map_congr_left
      intro q _
      rfl
    rw [this, sum_map_zero, refinedSum_nil]
  | cons kv d' ih =>
    obtain ⟨k, v⟩ := kv
    simp only [List.map_cons, List.nodup_cons] at hdnd
    have hstep : K.map (fun q => lookupD q ((k, v) :: d'))
        = K.map (fun q => (if q = k then v else 0) + lookupD q d') := by
      apply List.map_congr_left
      intro q _
      rw [lookupD_cons]
      by_cases hq : k = q
      · subst hq
        rw [if_pos rfl, if_pos rfl,
          lookupD_eq_zero_of_not_mem hdnd.1]
        omega
      · rw [if_neg hq, if_neg (fun h => hq h.symm), Nat.zero_add]
    rw [hstep, sum_map_add, sum_map_if_eq K k v hnd, refinedSum_cons,
      ih (fun kv hm hr => hcov kv (List.mem_cons_of_mem _ hm) hr) hdnd.2]
    by_cases hr : keyIsRefined k = true
    · rw [if_pos hr, if_pos (hcov (k, v) (List.mem_cons_self _ _) hr)]
    · rw [if_neg hr, if_neg (fun hm => hr (href k hm))]

theorem refinedSum_foldl_invariant (m : String) (hm : m ≠ "")
    (data : List StartsRecord)
    (hq : ∀ r ∈ data, r.year = m → 0 < r.quarter) :
    ∀ (E D : AggMatrix),
      (∀ p, refinedSum (provLookup p E) = lookupD (.base m) (provLookup p D)) →
      ∀ p, refinedSum (provLookup p (data.foldl (addRecord (some m)) E))
        = lookupD (.base m) (provLookup p (data.foldl (addRecord none) D)) := by
  induction data with
  | nil => intro E D h p; exact h p
  | cons r rest ih =>
    intro E D h p
    refine ih (fun r' hr' hy => hq r' (List.mem_cons_of_mem _ hr') hy)
      (addRecord (some m) E r) (addRecord none D r) ?_ p
    intro p'
    unfold addRecord
    rw [provLookup_addToAgg, provLookup_addToAgg]
    by_cases hp : r.provider = p'
    · rw [if_pos hp, if_pos hp, refinedSum_addToAssoc, periodKeyFor_none,
        lookupD_addToAssoc, h p']
      congr 1
      rcases periodKeyFor_some m r.year r.quarter with h1 | h1
      · rw [h1.2.2.2]
        have e1 : (if keyIsRefined (PeriodKey.refined m r.quarter) = true
            then r.starts else 0) = r.starts := by simp [keyIsRefined]
        have e2 : (if PeriodKey.base r.year = PeriodKey.base m
            then r.starts else 0) = r.starts := by
          rw [if_pos (by rw [h1.2.1])]
        rw [e1, e2]
      · rw [h1.2]
        have hyne : r.year ≠ m := by
          intro hy
          exact h1.1 ⟨hm, hy, hq r (List.mem_cons_self _ _) hy⟩
        have e1 : (if keyIsRefined (PeriodKey.base r.year) = true
            then r.starts else 0) = 0 := by simp [keyIsRefined]
        have e2 : (if PeriodKey.base r.year = PeriodKey.base m
            then r.starts else 0) = 0 := by
          rw [if_neg]
          intro hb
          injection hb with hb'
          exact hyne hb'
        rw [e1, e2]
    · rw [if_neg hp, if_neg hp]
      exact h p'

/-- Claim C2, amended: for every record set whose most-recent-period records
all carry a positive sub-period ordinal (and whose most recent period string
is non-empty), and every provider, the value the code reports in the
synthetic total column — the sum of the provider's values across all
quarterly keys — equals the unrefined total that aggregation with refinement
disabled (`most_recent_year=None`) assigns to the most recent period.  The
amendment excludes most-recent-period records with sub-period 0, which
refinement-enabled aggregation books under the unrefined key (outside every
quarterly column) while refinement-disabled aggregation books them into the
period total; see the counterexample. -/
theorem spec_C2 (data : List StartsRecord) (p : String)
    (wf : WFnoQ data) (hmr : startsMr data ≠ "")
    (hq : ∀ r ∈ data, r.year = startsMr data → 0 < r.quarter) :
    rowValue (startsMr data) (startsQKeys data)
        (provLookup p (startsAgg data)) (.base (startsMr data))
      = lookupD (.base (startsMr data))
          (provLookup p (aggregate_starts_by_provider_year data none)) := by
  rw [rowValue, if_pos rfl,
    sum_lookup_eq_refinedSum (nodup_startsQKeys data)
      (fun q hq' => startsQKeys_refined_all wf hq')
      (fun kv hm hr => provDict_refined_mem_qks hm hr)
      (nodupKeys_provLookup_aggregate p data _)]
  exact refinedSum_foldl_invariant (startsMr data) hmr data hq [] []
    (fun p' => rfl) p

/-- Witness for C2: the hypotheses hold of a concrete record set and the
conclusion follows by applying the theorem there. -/
theorem spec_C2_witness :
    (WFnoQ [⟨"P", "202425", 1, 2⟩]
      ∧ startsMr [⟨"P", "202425", 1, 2⟩] ≠ ""
      ∧ (∀ r ∈ [(⟨"P", "202425", 1, 2⟩ : StartsRecord)],
          r.year = startsMr [⟨"P", "202425", 1, 2⟩] → 0 < r.quarter))
    ∧ rowValue (startsMr [⟨"P", "202425", 1, 2⟩])
        (startsQKeys [⟨"P", "202425", 1, 2⟩])
        (provLookup "P" (startsAgg [⟨"P", "202425", 1, 2⟩]))
        (.base (startsMr [⟨"P", "202425", 1, 2⟩]))
      = lookupD (.base (startsMr [⟨"P", "202425", 1, 2⟩]))
          (provLookup "P" (aggregate_starts_by_provider_year
            [⟨"P", "202425", 1, 2⟩] none)) :=
  ⟨⟨by decide, by decide, by decide⟩,
    spec_C2 [⟨"P", "202425", 1, 2⟩] "P" (by decide) (by decide) (by decide)⟩

/-- Counterexample to C2 as stated: with a most-recent-period record carrying
sub-period 0 (quarter missing), the synthetic total column reports only the
quarterly keys' sum (2), while refinement-disabled aggregation gives the
full period total (7). -/
theorem spec_C2_counterexample :
    rowValue (startsMr [⟨"P", "202425", 0, 5⟩, ⟨"P", "202425", 1, 2⟩])
        (startsQKeys [⟨"P", "202425", 0, 5⟩, ⟨"P", "202425", 1, 2⟩])
        (provLookup "P" (startsAgg [⟨"P", "202425", 0, 5⟩, ⟨"P", "202425", 1, 2⟩]))
        (.base (startsMr [⟨"P", "202425", 0, 5⟩, ⟨"P", "202425", 1, 2⟩]))
      ≠ lookupD (.base (startsMr [⟨"P", "202425", 0, 5⟩, ⟨"P", "202425", 1, 2⟩]))
          (provLookup "P" (aggregate_starts_by_provider_year
            [⟨"P", "202425", 0, 5⟩, ⟨"P", "202425", 1, 2⟩] none))
    ∧ rowValue (startsMr [⟨"P", "202425", 0, 5⟩, ⟨"P", "202425", 1, 2⟩])
        (startsQKeys [⟨"P", "202425", 0, 5⟩, ⟨"P", "202425", 1, 2⟩])
        (provLookup "P" (startsAgg [⟨"P", "202425", 0, 5⟩, ⟨"P", "202425", 1, 2⟩]))
        (.base (startsMr [⟨"P", "202425", 0, 5⟩, ⟨"P", "202425", 1, 2⟩])) = 2
    ∧ lookupD (.base (startsMr [⟨"P", "202425", 0, 5⟩, ⟨"P", "202425", 1, 2⟩]))
        (provLookup "P" (aggregate_starts_by_provider_year
          [⟨"P", "202425", 0, 5⟩, ⟨"P", "202425", 1, 2⟩] none)) = 7 := by
  refine ⟨?_, by decide, by decide⟩
  decide

theorem perm_map_sum (f : α → Nat) {l1 l2 : List α} (h : l1.Perm l2) :
    (l1.map f).sum = (l2.map f).sum :=
  (h.map f).sum_eq

theorem total_split_general (A : AggMatrix) (cond : String × PeriodDict → Bool)
    (key : String × PeriodDict → Nat) (f : String × PeriodDict → Nat) :
    (A.map f).sum
      = ((sortDescNat key (A.filter cond)).map f).sum
        + ((A.filter (fun pd => !cond pd)).map f).sum := by
  rw [perm_map_sum f (sortDescNat_perm key (A.filter cond)),
    sum_filter_split A cond f]

theorem startsSplit_fst (data : List StartsRecord) (minStarts : Nat) :
    (startsSplit data minStarts).1
      = (startsAgg data).filter
          (fun pd => minStarts ≤ recentTotal (startsMr data) pd.2
            || decide (pd.1 ∈ ALWAYS_SHOW_PROVIDERS)) := by
  unfold startsSplit
  rw [List.partition_eq_filter_filter]

theorem startsSplit_snd (data : List StartsRecord) (minStarts : Nat) :
    (startsSplit data minStarts).2
      = (startsAgg data).filter
          (fun pd => !(minStarts ≤ recentTotal (startsMr data) pd.2
            || decide (pd.1 ∈ ALWAYS_SHOW_PROVIDERS))) := by
  unfold startsSplit
  rw [List.partition_eq_filter_filter]
  rfl

theorem map_sum_triple (f : String × PeriodDict → Nat)
    (x : String × PeriodDict) (M S : AggMatrix) :
    ((x :: M ++ S).map f).sum = f x + (M.map f).sum + (S.map f).sum := by
  rw [List.cons_append, List.map_cons, List.sum_cons, List.map_append,
    List.sum_append]
  omega

theorem starts_total_split (data : List StartsRecord) (minStarts : Nat)
    (k : PeriodKey) :
    startsYearTotals data k
      = ((startsMajorsSorted data minStarts).map
          (fun pd => rowValue (startsMr data) (startsQKeys data) pd.2 k)).sum
        + startsOtherTotals data minStarts k := by
  by_cases hk : k = .base (startsMr data)
  · subst hk
    rw [startsYearTotals, if_pos rfl, startsOtherTotals, if_pos rfl]
    rw [sum_map_comm (startsQKeys data) (startsAgg data)
      (fun q pd => lookupD q pd.2)]
    rw [sum_map_comm (startsQKeys data) (startsOthers data minStarts)
      (fun q pd => lookupD q pd.2)]
    have hrw : (startsMajorsSorted data minStarts).map
        (fun pd => rowValue (startsMr data) (startsQKeys data) pd.2
          (.base (startsMr data)))
        = (startsMajorsSorted data minStarts).map
            (fun pd => ((startsQKeys data).map (fun q => lookupD q pd.2)).sum) := by
      apply List.map_congr_left
      intro pd _
      rw [rowValue, if_pos rfl]
    rw [hrw]
    unfold startsMajorsSorted startsOthers
    rw [startsSplit_fst, startsSplit_snd]
    exact total_split_general (startsAgg data) _ _ _
  · rw [startsYearTotals, if_neg hk, startsOtherTotals, if_neg hk]
    have hrw : (startsMajorsSorted data minStarts).map
        (fun pd => rowValue (startsMr data) (startsQKeys data) pd.2 k)
        = (startsMajorsSorted data minStarts).map (fun pd => lookupD k pd.2) := by
      apply List.map_congr_left
      intro pd _
      rw [rowValue, if_neg hk]
    rw [hrw]
    unfold startsMajorsSorted startsOthers
    rw [startsSplit_fst, startsSplit_snd]
    exact total_split_general (startsAgg data) _ _ _

theorem london_total_split (data : List StartsRecord) (k : PeriodKey) :
    londonYearTotals data k
      = rowValue (londonMr data) (londonQKeys data) (londonFcData data) k
        + ((londonMajorsSorted data).map
            (fun pd => rowValue (londonMr data) (londonQKeys data) pd.2 k)).sum
        + londonSmallTotals data k := by
  by_cases hk : k = .base (londonMr data)
  · subst hk
    rw [londonYearTotals, if_pos rfl, londonSmallTotals, if_pos rfl]
    rw [sum_map_comm (londonQKeys data) (londonContribs data)
      (fun q pd => lookupD q pd.2)]
    rw [sum_map_comm (londonQKeys data) (londonSmalls data)
      (fun q pd => lookupD q pd.2)]
    have hrw : ∀ (l : AggMatrix), l.map
        (fun pd => rowValue (londonMr data) (londonQKeys data) pd.2
          (.base (londonMr data)))
        = l.map (fun pd => ((londonQKeys data).map (fun q => lookupD q pd.2)).sum) := by
      intro l
      apply List.map_congr_left
      intro pd _
      rw [rowValue, if_pos rfl]
    rw [hrw, rowValue, if_pos rfl]
    unfold londonContribs
    rw [map_sum_triple]
  · rw [londonYearTotals, if_neg hk, londonSmallTotals, if_neg hk]
    have hrw : ∀ (l : AggMatrix), l.map
        (fun pd => rowValue (londonMr data) (londonQKeys data) pd.2 k)
        = l.map (fun pd => lookupD k pd.2) := by
      intro l
      apply List.map_congr_left
      intro pd _
      rw [rowValue, if_neg hk]
    rw [hrw, rowValue, if_neg hk]
    unfold londonContribs
    rw [map_sum_triple]

theorem containsProv_iff (p : String) (agg : AggMatrix) :
    containsProv p agg = true ↔ p ∈ agg.map Prod.fst := by
  induction agg with
  | nil => simp [containsProv]
  | cons pd rest ih =>
    obtain ⟨p', d⟩ := pd
    simp only [containsProv, List.any_cons, Bool.or_eq_true, beq_iff_eq,
      List.map_cons, List.mem_cons]
    simp only [containsProv] at ih
    rw [ih]
    constructor
    · rintro (h | h)
      · exact Or.inl h.symm
      · exact Or.inr h
    · rintro (h | h)
      · exact Or.inl h.symm
      · exact Or.inr h

theorem nodup_provFst_ensureProv (p : String) (agg : AggMatrix)
    (h : (agg.map Prod.fst).Nodup) :
    ((ensureProv p agg).map Prod.fst).Nodup := by
  unfold ensureProv
  by_cases hc : containsProv p agg = true
  · rw [if_pos hc]; exact h
  · rw [if_neg hc, List.map_append]
    rw [List.nodup_append]
    refine ⟨h, by simp, ?_⟩
    intro q hq
    simp only [List.map_cons, List.map_nil, List.mem_singleton]
    intro he
    subst he
    exact hc ((containsProv_iff q agg).mpr hq)

theorem nodup_provFst_foldl_adjust (l : List (PeriodKey × Nat)) (p : String) :
    ∀ (agg : AggMatrix), (agg.map Prod.fst).Nodup →
      ((l.foldl (fun a kv => addToAgg p kv.1 kv.2 a) agg).map Prod.fst).Nodup := by
  induction l with
  | nil => intro agg h; exact h
  | cons kv rest ih =>
    intro agg h
    exact ih (addToAgg p kv.1 kv.2 agg) (nodup_provFst_addToAgg h)

theorem nodup_provFst_londonAgg (data : List StartsRecord) :
    ((londonAgg data).map Prod.fst).Nodup := by
  unfold londonAgg apply_founders_coders_adjustments
  exact nodup_provFst_foldl_adjust fcAdjustments fcName _
    (nodup_provFst_ensureProv fcName _ (nodup_provFst_aggregate data _))

theorem provFst_removeProv_sub {q p : String} {agg : AggMatrix}
    (h : q ∈ (removeProv p agg).map Prod.fst) : q ∈ agg.map Prod.fst := by
  induction agg with
  | nil => cases h
  | cons pd rest ih =>
    obtain ⟨p', d⟩ := pd
    by_cases h1 : p' = p
    · rw [removeProv, if_pos h1] at h
      exact List.mem_cons_of_mem _ h
    · rw [removeProv, if_neg h1] at h
      rcases List.mem_cons.mp h with h2 | h2
      · exact List.mem_cons.mpr (Or.inl h2)
      · exact List.mem_cons_of_mem _ (ih h2)

theorem nodup_provFst_removeProv {p : String} {agg : AggMatrix}
    (h : (agg.map Prod.fst).Nodup) :
    ((removeProv p agg).map Prod.fst).Nodup := by
  induction agg with
  | nil => exact h
  | cons pd rest ih =>
    obtain ⟨p', d⟩ := pd
    simp only [List.map_cons, List.nodup_cons] at h
    by_cases h1 : p' = p
    · rw [removeProv, if_pos h1]; exact h.2
    · rw [removeProv, if_neg h1]
      simp only [List.map_cons, List.nodup_cons]
      exact ⟨fun hm => h.1 (provFst_removeProv_sub hm), ih h.2⟩

theorem not_mem_provFst_removeProv {p : String} {agg : AggMatrix}
    (h : (agg.map Prod.fst).Nodup) :
    p ∉ (removeProv p agg).map Prod.fst := by
  induction agg with
  | nil => intro hm; cases hm
  | cons pd rest ih =>
    obtain ⟨p', d⟩ := pd
    simp only [List.map_cons, List.nodup_cons] at h
    by_cases h1 : p' = p
    · rw [removeProv, if_pos h1]
      intro hm
      exact h.1 (h1 ▸ hm)
    · rw [removeProv, if_neg h1]
      intro hm
      rcases List.mem_cons.mp hm with h2 | h2
      · exact h1 h2.symm
      · exact ih h.2 h2

theorem popProvs_rest_sub {names : List String} {q : String} :
    ∀ {agg : AggMatrix}, q ∈ ((popProvs names agg).2).map Prod.fst →
      q ∈ agg.map Prod.fst := by
  induction names with
  | nil => intro agg h; exact h
  | cons n rest ih =>
    intro agg h
    by_cases hc : containsProv n agg = true
    · rw [popProvs, if_pos hc] at h
      exact provFst_removeProv_sub (ih h)
    · rw [popProvs, if_neg hc] at h
      exact ih h

theorem nodup_popProvs_rest {names : List String} :
    ∀ {agg : AggMatrix}, (agg.map Prod.fst).Nodup →
      (((popProvs names agg).2).map Prod.fst).Nodup := by
  induction names with
  | nil => intro agg h; exact h
  | cons n rest ih =>
    intro agg h
    by_cases hc : containsProv n agg = true
    · rw [popProvs, if_pos hc]
      exact ih (nodup_provFst_removeProv h)
    · rw [popProvs, if_neg hc]
      exact ih h

theorem popProvs_popped_not_in_rest {names : List String} :
    ∀ {agg : AggMatrix}, (agg.map Prod.fst).Nodup →
      ∀ pd ∈ (popProvs names agg).1,
        pd.1 ∉ ((popProvs names agg).2).map Prod.fst := by
  induction names with
  | nil => intro agg _ pd hpd; cases hpd
  | cons n rest ih =>
    intro agg h pd hpd
    by_cases hc : containsProv n agg = true
    · rw [popProvs, if_pos hc] at hpd ⊢
      rcases List.mem_cons.mp hpd with h1 | h1
      · subst h1
        intro hm
        exact not_mem_provFst_removeProv h (popProvs_rest_sub hm)
      · exact ih (nodup_provFst_removeProv h) pd h1
    · rw [popProvs, if_neg hc] at hpd ⊢
      exact ih h pd hpd

theorem popProvs_popped_names {names : List String} :
    ∀ {agg : AggMatrix}, ∀ pd ∈ (popProvs names agg).1, pd.1 ∈ names := by
  induction names with
  | nil => intro agg pd hpd; cases hpd
  | cons n rest ih =>
    intro agg pd hpd
    by_cases hc : containsProv n agg = true
    · rw [popProvs, if_pos hc] at hpd
      rcases List.mem_cons.mp hpd with h1 | h1
      · subst h1; exact List.mem_cons_self _ _
      · exact List.mem_cons_of_mem _ (ih pd h1)
    · rw [popProvs, if_neg hc] at hpd
      exact List.mem_cons_of_mem _ (ih pd hpd)

theorem londonSplit_fst (data : List StartsRecord) :
    (londonSplit data).1
      = (londonRest data).filter (fun pd => decide (4 ≤ maxBaseStarts pd.2)) := by
  unfold londonSplit
  rw [List.partition_eq_filter_filter]

theorem londonSplit_snd (data : List StartsRecord) :
    (londonSplit data).2
      = (londonRest data).filter
          (fun pd => !decide (4 ≤ maxBaseStarts pd.2)) := by
  unfold londonSplit
  rw [List.partition_eq_filter_filter]
  rfl

theorem london_MS_fst_sub {data : List StartsRecord} {q : String}
    (h : q ∈ (londonMajorsSorted data).map Prod.fst) :
    q ∈ (londonRest data).map Prod.fst := by
  rcases List.mem_map.mp h with ⟨pd, hpd, hq⟩
  have h1 : pd ∈ (londonSplit data).1 :=
    (sortDescNat_perm _ _).subset hpd
  rw [londonSplit_fst] at h1
  exact hq ▸ List.mem_map_of_mem Prod.fst (List.mem_of_mem_filter h1)

theorem london_S_fst_sub {data : List StartsRecord} {q : String}
    (h : q ∈ (londonSmalls data).map Prod.fst) :
    q ∈ (londonRest data).map Prod.fst := by
  rcases List.mem_map.mp h with ⟨pd, hpd, hq⟩
  unfold londonSmalls at hpd
  rw [londonSplit_snd] at hpd
  exact hq ▸ List.mem_map_of_mem Prod.fst (List.mem_of_mem_filter hpd)

theorem london_rogue_not_contrib (data : List StartsRecord)
    (pd : String × PeriodDict) (hpd : pd ∈ londonRogues data) :
    pd.1 ∉ (londonContribs data).map Prod.fst := by
  intro hmem
  have hnames : pd.1 ∈ rogueNames := popProvs_popped_names pd hpd
  have hnodup : (((removeProv fcName (londonAgg data))).map Prod.fst).Nodup :=
    nodup_provFst_removeProv (nodup_provFst_londonAgg data)
  have hnotrest : pd.1 ∉ (londonRest data).map Prod.fst :=
    popProvs_popped_not_in_rest hnodup pd hpd
  unfold londonContribs at hmem
  rw [List.cons_append, List.map_cons, List.map_append] at hmem
  rcases List.mem_cons.mp hmem with h1 | h1
  · have h2 : fcName ∈ rogueNames := by
      have h3 : pd.1 = fcName := h1
      rw [← h3]
      exact hnames
    exact absurd h2 (by decide)
  · rcases List.mem_append.mp h1 with h2 | h2
    · exact hnotrest (london_MS_fst_sub h2)
    · exact hnotrest (london_S_fst_sub h2)

/-- Claim C1: in both report pipelines, for every record set and every
column key, the Total row's value equals the sum of the individually-shown
rows' values plus the pooled "All other providers" row's value at that key
(in `starts.py`: major rows plus `other_totals`; in `london_sme.py`:
the FOUNDERS & CODERS row plus major rows plus `small_totals`), and the
excluded rogue/closed providers of `london_sme.py` appear neither among the
contributors to the Total row nor among the pooled small providers. -/
theorem spec_C1 :
    (∀ (data : List StartsRecord) (minStarts : Nat) (k : PeriodKey),
        WFnoQ data → k ∈ startsFinalKeys data →
        startsYearTotals data k
          = ((startsMajorsSorted data minStarts).map
              (fun pd => rowValue (startsMr data) (startsQKeys data) pd.2 k)).sum
            + startsOtherTotals data minStarts k)
    ∧ (∀ (data : List StartsRecord) (k : PeriodKey),
        WFnoQ data → k ∈ londonFinalKeys data →
        londonYearTotals data k
          = rowValue (londonMr data) (londonQKeys data) (londonFcData data) k
            + ((londonMajorsSorted data).map
                (fun pd => rowValue (londonMr data) (londonQKeys data) pd.2 k)).sum
            + londonSmallTotals data k)
    ∧ (∀ (data : List StartsRecord), ∀ pd ∈ londonRogues data,
        pd.1 ∉ (londonContribs data).map Prod.fst) :=
  ⟨fun data minStarts k _ _ => starts_total_split data minStarts k,
   fun data k _ _ => london_total_split data k,
   fun data pd hpd => london_rogue_not_contrib data pd hpd⟩

/-- Witness for C1: the hypotheses are satisfied at concrete record sets and
the theorem applies there. -/
theorem spec_C1_witness :
    (WFnoQ [⟨"A", "202425", 1, 10⟩, ⟨"B", "202425", 1, 2⟩]
      ∧ PeriodKey.base "202425"
          ∈ startsFinalKeys [⟨"A", "202425", 1, 10⟩, ⟨"B", "202425", 1, 2⟩]
      ∧ startsYearTotals [⟨"A", "202425", 1, 10⟩, ⟨"B", "202425", 1, 2⟩]
            (.base "202425")
          = ((startsMajorsSorted [⟨"A", "202425", 1, 10⟩, ⟨"B", "202425", 1, 2⟩] 3).map
              (fun pd => rowValue
                (startsMr [⟨"A", "202425", 1, 10⟩, ⟨"B", "202425", 1, 2⟩])
                (startsQKeys [⟨"A", "202425", 1, 10⟩, ⟨"B", "202425", 1, 2⟩])
                pd.2 (.base "202425"))).sum
            + startsOtherTotals [⟨"A", "202425", 1, 10⟩, ⟨"B", "202425", 1, 2⟩] 3
                (.base "202425"))
    ∧ (WFnoQ [⟨"ACME", "202425", 1, 5⟩]
      ∧ PeriodKey.base "202425" ∈ londonFinalKeys [⟨"ACME", "202425", 1, 5⟩]
      ∧ londonYearTotals [⟨"ACME", "202425", 1, 5⟩] (.base "202425")
          = rowValue (londonMr [⟨"ACME", "202425", 1, 5⟩])
              (londonQKeys [⟨"ACME", "202425", 1, 5⟩])
              (londonFcData [⟨"ACME", "202425", 1, 5⟩]) (.base "202425")
            + ((londonMajorsSorted [⟨"ACME", "202425", 1, 5⟩]).map
                (fun pd => rowValue (londonMr [⟨"ACME", "202425", 1, 5⟩])
                  (londonQKeys [⟨"ACME", "202425", 1, 5⟩]) pd.2
                  (.base "202425"))).sum
            + londonSmallTotals [⟨"ACME", "202425", 1, 5⟩] (.base "202425"))
    ∧ (("LONDON COLLEGE OF GLOBAL EDUCATION", [(PeriodKey.refined "202425" 1, 2)])
          ∈ londonRogues [⟨"LONDON COLLEGE OF GLOBAL EDUCATION", "202425", 1, 2⟩]
      ∧ ("LONDON COLLEGE OF GLOBAL EDUCATION",
            [(PeriodKey.refined "202425" 1, 2)]).1
          ∉ (londonContribs
              [⟨"LONDON COLLEGE OF GLOBAL EDUCATION", "202425", 1, 2⟩]).map
                Prod.fst) :=
  ⟨⟨by decide, by decide,
      spec_C1.1 [⟨"A", "202425", 1, 10⟩, ⟨"B", "202425", 1, 2⟩] 3
        (.base "202425") (by decide) (by decide)⟩,
   ⟨by decide, by decide,
      spec_C1.2.1 [⟨"ACME", "202425", 1, 5⟩] (.base "202425")
        (by decide) (by decide)⟩,
   by decide,
   spec_C1.2.2 [⟨"LONDON COLLEGE OF GLOBAL EDUCATION", "202425", 1, 2⟩]
     ("LONDON COLLEGE OF GLOBAL EDUCATION", [(PeriodKey.refined "202425" 1, 2)])
     (by decide)⟩

theorem count_filter_fst_eq_one {A : AggMatrix}
    (cond : String × PeriodDict → Bool) (hnd : (A.map Prod.fst).Nodup)
    {pd : String × PeriodDict} (hpd : pd ∈ A) (hc : cond pd = true) :
    ((A.filter cond).map Prod.fst).count pd.1 = 1 := by
  have hle : ((A.filter cond).map Prod.fst).count pd.1
      ≤ (A.map Prod.fst).count pd.1 :=
    ((show (A.filter cond).Sublist A from List.filter_sublist A).map Prod.fst).count_le pd.1
  have heq : (A.map Prod.fst).count pd.1 = 1 :=
    List.count_eq_one_of_mem hnd (List.mem_map_of_mem Prod.fst hpd)
  have hge : 0 < ((A.filter cond).map Prod.fst).count pd.1 := by
    rw [List.count_pos_iff]
    exact List.mem_map_of_mem Prod.fst (List.mem_filter.mpr ⟨hpd, hc⟩)
  omega

theorem not_mem_filter_fst {A : AggMatrix}
    (cond : String × PeriodDict → Bool) (hnd : (A.map Prod.fst).Nodup)
    {pd : String × PeriodDict} (hpd : pd ∈ A) (hc : cond pd = false) :
    pd.1 ∉ (A.filter cond).map Prod.fst := by
  intro hm
  rcases List.mem_map.mp hm with ⟨pd', hpd', hfst⟩
  rcases List.mem_filter.mp hpd' with ⟨hpdA, hcond⟩
  have : pd' = pd := entry_eq_of_nodup_fst hnd hpdA hpd hfst
  rw [this, hc] at hcond
  cases hcond

theorem starts_cond_eq_true {data : List StartsRecord} {minStarts : Nat}
    {pd : String × PeriodDict}
    (h : minStarts ≤ recentTotal (startsMr data) pd.2
      ∨ pd.1 ∈ ALWAYS_SHOW_PROVIDERS) :
    (decide (minStarts ≤ recentTotal (startsMr data) pd.2)
      || decide (pd.1 ∈ ALWAYS_SHOW_PROVIDERS)) = true := by
  rcases h with h | h <;> simp [h]

theorem starts_cond_eq_false {data : List StartsRecord} {minStarts : Nat}
    {pd : String × PeriodDict}
    (h : ¬(minStarts ≤ recentTotal (startsMr data) pd.2
      ∨ pd.1 ∈ ALWAYS_SHOW_PROVIDERS)) :
    (decide (minStarts ≤ recentTotal (startsMr data) pd.2)
      || decide (pd.1 ∈ ALWAYS_SHOW_PROVIDERS)) = false := by
  push_neg at h
  simp [h.1, h.2]

/-- Claim C4: under threshold bucketing in `starts.py`, every provider entry
whose most-recent-period total reaches the threshold (or whose name is in
the always-show set) appears exactly once among the individually-shown major
rows and not at all among the pooled other providers; every other entry
appears exactly once among the pooled other providers and not among the
major rows; major rows are stably sorted descending by most-recent-period
total; and the spec's scenario (totals 10, 2, 6, 1 with threshold 3) yields
individual rows 10 and 6, a pooled row of 3 and a Total of 19. -/
theorem spec_C4 :
    (∀ (data : List StartsRecord) (minStarts : Nat) (pd : String × PeriodDict),
        pd ∈ startsAgg data →
        ((minStarts ≤ recentTotal (startsMr data) pd.2
            ∨ pd.1 ∈ ALWAYS_SHOW_PROVIDERS) →
          ((startsMajorsSorted data minStarts).map Prod.fst).count pd.1 = 1
            ∧ pd.1 ∉ (startsOthers data minStarts).map Prod.fst)
        ∧ (¬(minStarts ≤ recentTotal (startsMr data) pd.2
            ∨ pd.1 ∈ ALWAYS_SHOW_PROVIDERS) →
          ((startsOthers data minStarts).map Prod.fst).count pd.1 = 1
            ∧ pd.1 ∉ (startsMajorsSorted data minStarts).map Prod.fst))
    ∧ (∀ (data : List StartsRecord) (minStarts : Nat),
        List.Pairwise (fun a b => recentTotal (startsMr data) b.2
          ≤ recentTotal (startsMr data) a.2) (startsMajorsSorted data minStarts))
    ∧ startsRows [⟨"A", "202425", 1, 10⟩, ⟨"B", "202425", 1, 2⟩,
          ⟨"C", "202425", 1, 6⟩, ⟨"D", "202425", 1, 1⟩] 3
        = [[.str "**Total**", .str "**19**", .str "**19**"],
           [.str "A", .num 10, .num 10],
           [.str "C", .num 6, .num 6],
           [.str "All other providers", .num 3, .num 3]] := by
  refine ⟨?_, ?_, by decide⟩
  · intro data minStarts pd hpd
    have hnd := nodup_provFst_aggregate data (some (startsMr data))
    have hcountMS : ∀ q, ((startsMajorsSorted data minStarts).map Prod.fst).count q
        = (((startsSplit data minStarts).1).map Prod.fst).count q := by
      intro q
      exact ((sortDescNat_perm _ _).map Prod.fst).count_eq q
    constructor
    · intro h
      have hc : (decide (minStarts ≤ recentTotal (startsMr data) pd.2)
          || decide (pd.1 ∈ ALWAYS_SHOW_PROVIDERS)) = true := starts_cond_eq_true h
      constructor
      · rw [hcountMS, startsSplit_fst]
        exact count_filter_fst_eq_one _ hnd hpd hc
      · unfold startsOthers
        rw [startsSplit_snd]
        exact not_mem_filter_fst _ hnd hpd (by rw [hc]; rfl)
    · intro h
      have hc : (decide (minStarts ≤ recentTotal (startsMr data) pd.2)
          || decide (pd.1 ∈ ALWAYS_SHOW_PROVIDERS)) = false := starts_cond_eq_false h
      constructor
      · unfold startsOthers
        rw [startsSplit_snd]
        exact count_filter_fst_eq_one _ hnd hpd (by rw [hc]; rfl)
      · intro hm
        unfold startsMajorsSorted at hm
        rw [((sortDescNat_perm _ _).map Prod.fst).mem_iff,
          startsSplit_fst] at hm
        exact not_mem_filter_fst _ hnd hpd hc hm
  · intro data minStarts
    exact sortDescNat_pairwise _ _

/-- Witness for C4: the membership and threshold hypotheses are satisfied at
a concrete record set and the theorem applies there. -/
theorem spec_C4_witness :
    (("A", [(PeriodKey.refined "202425" 1, 10)])
        ∈ startsAgg [⟨"A", "202425", 1, 10⟩, ⟨"B", "202425", 1, 2⟩,
            ⟨"C", "202425", 1, 6⟩, ⟨"D", "202425", 1, 1⟩]
      ∧ (3 ≤ recentTotal
          (startsMr [⟨"A", "202425", 1, 10⟩, ⟨"B", "202425", 1, 2⟩,
            ⟨"C", "202425", 1, 6⟩, ⟨"D", "202425", 1, 1⟩])
          ("A", [(PeriodKey.refined "202425" 1, 10)]).2
        ∨ ("A", [(PeriodKey.refined "202425" 1, 10)]).1 ∈ ALWAYS_SHOW_PROVIDERS))
    ∧ ((startsMajorsSorted [⟨"A", "202425", 1, 10⟩, ⟨"B", "202425", 1, 2⟩,
          ⟨"C", "202425", 1, 6⟩, ⟨"D", "202425", 1, 1⟩] 3).map Prod.fst).count
            ("A", [(PeriodKey.refined "202425" 1, 10)]).1 = 1
      ∧ ("A", [(PeriodKey.refined "202425" 1, 10)]).1
          ∉ (startsOthers [⟨"A", "202425", 1, 10⟩, ⟨"B", "202425", 1, 2⟩,
              ⟨"C", "202425", 1, 6⟩, ⟨"D", "202425", 1, 1⟩] 3).map Prod.fst :=
  ⟨⟨by decide, by decide⟩,
    (spec_C4.1 [⟨"A", "202425", 1, 10⟩, ⟨"B", "202425", 1, 2⟩,
        ⟨"C", "202425", 1, 6⟩, ⟨"D", "202425", 1, 1⟩] 3
      ("A", [(PeriodKey.refined "202425" 1, 10)]) (by decide)).1 (by decide)⟩

theorem char_eq_of_toNat_eq {a b : Char} (h : a.toNat = b.toNat) : a = b :=
  Char.eq_of_val_eq (UInt32.toNat.inj h)

theorem charListLt_irrefl (a : List Char) : charListLt a a = false := by
  induction a with
  | nil => rfl
  | cons c cs ih => simp [charListLt, ih]

theorem charListLt_asymm : ∀ {a b : List Char},
    charListLt a b = true → charListLt b a = false
  | [], [], h => by cases h
  | [], _ :: _, _ => rfl
  | _ :: _, [], h => by cases h
  | a :: as, b :: bs, h => by
    simp only [charListLt, Bool.or_eq_true, Bool.and_eq_true,
      decide_eq_true_eq, beq_iff_eq] at h
    simp only [charListLt, Bool.or_eq_false_iff, Bool.and_eq_false_iff]
    rcases h with h | ⟨hab, h⟩
    · constructor
      · simp only [decide_eq_false_iff_not]
        omega
      · left
        simp only [beq_eq_false_iff_ne, ne_eq]
        intro he
        rw [he] at h
        omega
    · subst hab
      refine ⟨by simp, Or.inr (charListLt_asymm h)⟩

theorem charListLt_trans : ∀ {a b c : List Char},
    charListLt a b = true → charListLt b c = true → charListLt a c = true
  | [], [], _, h, _ => by cases h
  | [], _ :: _, [], _, h => by cases h
  | [], _ :: _, _ :: _, _, _ => rfl
  | _ :: _, [], _, h, _ => by cases h
  | _ :: _, _ :: _, [], _, h => by cases h
  | a :: as, b :: bs, c :: cs, h1, h2 => by
    simp only [charListLt, Bool.or_eq_true, Bool.and_eq_true,
      decide_eq_true_eq, beq_iff_eq] at h1 h2 ⊢
    rcases h1 with h1 | ⟨hab, h1⟩ <;> rcases h2 with h2 | ⟨hbc, h2⟩
    · left; omega
    · subst hbc; left; exact h1
    · subst hab; left; exact h2
    · subst hab; subst hbc
      exact Or.inr ⟨rfl, charListLt_trans h1 h2⟩

theorem charListLt_conn : ∀ {a b : List Char},
    charListLt a b = false → charListLt b a = false → a = b
  | [], [], _, _ => rfl
  | [], _ :: _, h, _ => by cases h
  | _ :: _, [], _, h => by cases h
  | a :: as, b :: bs, h1, h2 => by
    simp only [charListLt, Bool.or_eq_false_iff, Bool.and_eq_false_iff,
      decide_eq_false_iff_not, beq_eq_false_iff_ne, ne_eq] at h1 h2
    have hab : a = b := char_eq_of_toNat_eq (by omega)
    subst hab
    rcases h1.2 with h1' | h1'
    · exact absurd rfl h1'
    · rcases h2.2 with h2' | h2'
      · exact absurd rfl h2'
      · rw [charListLt_conn h1' h2']

theorem pairLt_asymm {a b : String × Nat} (h : pairLt a b = true) :
    pairLt b a = false := by
  simp only [pairLt, Bool.or_eq_true, Bool.and_eq_true,
    decide_eq_true_eq, beq_iff_eq] at h
  simp only [pairLt, Bool.or_eq_false_iff, Bool.and_eq_false_iff]
  rcases h with h | ⟨hab, h⟩
  · refine ⟨charListLt_asymm h, Or.inl ?_⟩
    simp only [beq_eq_false_iff_ne, ne_eq]
    intro he
    rw [← he, charListLt_irrefl] at h
    cases h
  · have : b.1.data = a.1.data := by rw [hab]
    refine ⟨by rw [this, charListLt_irrefl], Or.inr ?_⟩
    simp only [decide_eq_false_iff_not]
    omega

theorem pairLt_trans {a b c : String × Nat} (h1 : pairLt a b = true)
    (h2 : pairLt b c = true) : pairLt a c = true := by
  simp only [pairLt, Bool.or_eq_true, Bool.and_eq_true,
    decide_eq_true_eq, beq_iff_eq] at h1 h2 ⊢
  rcases h1 with h1 | ⟨hab, h1⟩ <;> rcases h2 with h2 | ⟨hbc, h2⟩
  · left; exact charListLt_trans h1 h2
  · rw [← hbc]; left; exact h1
  · rw [hab]; left; exact h2
  · rw [hab, hbc]; right; exact ⟨rfl, by omega⟩

theorem pairLt_conn {a b : String × Nat} (h1 : pairLt a b = false)
    (h2 : pairLt b a = false) : a = b := by
  simp only [pairLt, Bool.or_eq_false_iff, Bool.and_eq_false_iff,
    decide_eq_false_iff_not, beq_eq_false_iff_ne, ne_eq] at h1 h2
  have hs : a.1 = b.1 := by
    have := charListLt_conn h1.1 h2.1
    exact String.ext this
  rcases h1.2 with h1' | h1'
  · exact absurd hs h1'
  · rcases h2.2 with h2' | h2'
    · exact absurd hs.symm h2'
    · have hn : a.2 = b.2 := by omega
      exact Prod.ext hs hn

theorem pairLt_lt_of_lt_of_nlt {x y z : String × Nat}
    (h1 : pairLt x y = true) (h2 : pairLt z y = false) :
    pairLt x z = true := by
  by_cases h3 : pairLt y z = true
  · exact pairLt_trans h1 h3
  · rw [Bool.not_eq_true] at h3
    rw [pairLt_conn h3 h2] at h1
    exact h1

theorem insertKeyAsc_pairwise (k : PeriodKey) (l : List PeriodKey)
    (h : List.Pairwise (fun a b => pairLt (sortPair b) (sortPair a) = false) l) :
    List.Pairwise (fun a b => pairLt (sortPair b) (sortPair a) = false)
      (insertKeyAsc k l) := by
  induction l with
  | nil => simp [insertKeyAsc]
  | cons y ys ih =>
    rcases List.pairwise_cons.mp h with ⟨hy, hys⟩
    by_cases hlt : pairLt (sortPair y) (sortPair k) = true
    · simp only [insertKeyAsc, if_pos hlt]
      refine List.pairwise_cons.mpr ⟨?_, ih hys⟩
      intro z hz
      rcases List.mem_cons.mp ((insertKeyAsc_perm k ys).mem_iff.mp hz)
        with hz1 | hz1
      · subst hz1; exact pairLt_asymm hlt
      · exact hy z hz1
    · rw [Bool.not_eq_true] at hlt
      simp only [insertKeyAsc, hlt, Bool.false_eq_true, if_false]
      refine List.pairwise_cons.mpr ⟨?_, h⟩
      intro z hz
      rcases List.mem_cons.mp hz with hz1 | hz1
      · subst hz1; exact hlt
      · rw [Bool.eq_false_iff]
        intro hzk
        have := pairLt_lt_of_lt_of_nlt hzk hlt
        rw [hy z hz1] at this
        cases this

theorem sortKeysAsc_pairwise (l : List PeriodKey) :
    List.Pairwise (fun a b => pairLt (sortPair b) (sortPair a) = false)
      (sortKeysAsc l) := by
  induction l with
  | nil => exact List.Pairwise.nil
  | cons x xs ih => exact insertKeyAsc_pairwise x _ ih

theorem buildFinalKeys_nil_qks (mr : String) (l : List PeriodKey) :
    buildFinalKeys [] mr l = l := by
  induction l with
  | nil => rfl
  | cons k rest ih =>
    by_cases h : keyHasQ k = true
    · simp only [buildFinalKeys, h, Bool.not_true, Bool.false_eq_true,
        if_false, List.head?_nil]
      rw [if_neg (by simp), ih]
    · rw [Bool.not_eq_true] at h
      simp only [buildFinalKeys, h, Bool.not_false, if_true]
      rw [ih]

theorem buildFinalKeys_copy (qks : List PeriodKey) (mr : String)
    {pre : List PeriodKey} (rest : List PeriodKey)
    (hpre : ∀ k ∈ pre, keyHasQ k = false) :
    buildFinalKeys qks mr (pre ++ rest) = pre ++ buildFinalKeys qks mr rest := by
  induction pre with
  | nil => rfl
  | cons k pre' ih =>
    have hk : keyHasQ k = false := hpre k (List.mem_cons_self _ _)
    rw [List.cons_append]
    simp only [buildFinalKeys, hk, Bool.not_false, if_true]
    rw [ih (fun k' hk' => hpre k' (List.mem_cons_of_mem _ hk'))]
    rfl

theorem buildFinalKeys_no_head (qks : List PeriodKey) (mr : String)
    {l : List PeriodKey} (h : ∀ k ∈ l, ¬(qks.head? = some k)) :
    buildFinalKeys qks mr l = l := by
  induction l with
  | nil => rfl
  | cons k rest ih =>
    have hrest := fun k' hk' => h k' (List.mem_cons_of_mem _ hk')
    by_cases hq : keyHasQ k = true
    · simp only [buildFinalKeys, hq, Bool.not_true, Bool.false_eq_true, if_false]
      rw [if_neg (h k (List.mem_cons_self _ _)), ih hrest]
    · rw [Bool.not_eq_true] at hq
      simp only [buildFinalKeys, hq, Bool.not_false, if_true]
      rw [ih hrest]

theorem starts_plan_insert {data : List StartsRecord} (wf : WFnoQ data)
    {q0 : PeriodKey} {qrest : List PeriodKey}
    (h : startsQKeys data = q0 :: qrest) :
    ∃ pre post, startsSortedKeys data = pre ++ q0 :: post
      ∧ (∀ k ∈ pre,
          (keyStartsWith k (startsMr data) && keyHasQ k) = false)
      ∧ startsFinalKeys data
          = pre ++ .base (startsMr data) :: q0 :: post := by
  have hfil : (startsSortedKeys data).filter
      (fun k => keyStartsWith k (startsMr data) && keyHasQ k) = q0 :: qrest := h
  rcases List.filter_eq_cons_iff.mp hfil with
    ⟨pre, post, hsp, hpre, hq0, hpost⟩
  refine ⟨pre, post, hsp, fun k hk => Bool.not_eq_true _ ▸ hpre k hk, ?_⟩
  have hpre' : ∀ k ∈ pre, keyHasQ k = false := by
    intro k hk
    by_cases hq : keyHasQ k = true
    · exfalso
      have hkmem : k ∈ startsSortedKeys data := by
        rw [hsp]
        exact List.mem_append.mpr (Or.inl hk)
      rcases starts_hasQ_refined wf (mem_startsSortedKeys_iff.mp hkmem) hq
        with ⟨n, hn, hkr, hmr⟩
      apply hpre k hk
      rw [hkr, keyStartsWith_refined_self, keyHasQ_refined]
      rfl
    · exact Bool.not_eq_true _ ▸ hq
  have hq0q : keyHasQ q0 = true := by
    rcases Bool.and_eq_true_iff.mp hq0 with ⟨_, h2⟩
    exact h2
  have hnd : (startsSortedKeys data).Nodup := nodup_startsSortedKeys data
  rw [hsp] at hnd
  have hq0post : q0 ∉ post := by
    have := (hnd.of_append_right : (q0 :: post).Nodup)
    exact (List.nodup_cons.mp this).1
  unfold startsFinalKeys
  rw [hsp, buildFinalKeys_copy _ _ _ hpre']
  congr 1
  simp only [buildFinalKeys, hq0q, Bool.not_true, Bool.false_eq_true, if_false]
  rw [if_pos (by rw [h]; rfl)]
  rw [buildFinalKeys_no_head]
  intro k hk hhead
  rw [h] at hhead
  simp only [List.head?_cons, Option.some.injEq] at hhead
  subst hhead
  exact hq0post hk

/-- Claim C3: the column planner sorts the observed period keys ascending by
the pair (base period string, sub-period ordinal), treating an unrefined key
as ordinal 0, and when refined keys exist for the most recent base period it
inserts the synthetic total key — the bare most-recent period — immediately
before that period's first refined key (the segment before it contains no
quarterly key); in particular the spec scenario with base periods 2022-23,
2023-24 and most-recent 2024-25 with quarters 1 and 2 yields the column
order 2022-23, 2023-24, 2024-25, 2024-25 Q1, 2024-25 Q2. -/
theorem spec_C3 :
    (∀ (data : List StartsRecord), WFnoQ data →
      List.Pairwise (fun a b => pairLt (sortPair b) (sortPair a) = false)
        (startsSortedKeys data)
      ∧ (startsQKeys data = [] → startsFinalKeys data = startsSortedKeys data)
      ∧ (∀ (q0 : PeriodKey) (qrest : List PeriodKey),
          startsQKeys data = q0 :: qrest →
          ∃ pre post, startsSortedKeys data = pre ++ q0 :: post
            ∧ (∀ k ∈ pre,
                (keyStartsWith k (startsMr data) && keyHasQ k) = false)
            ∧ startsFinalKeys data
                = pre ++ .base (startsMr data) :: q0 :: post))
    ∧ startsFinalKeys [⟨"P", "2022-23", 0, 1⟩, ⟨"P", "2023-24", 0, 1⟩,
          ⟨"P", "2024-25", 1, 1⟩, ⟨"P", "2024-25", 2, 1⟩]
        = [.base "2022-23", .base "2023-24", .base "2024-25",
           .refined "2024-25" 1, .refined "2024-25" 2]
    ∧ startsHeaders [⟨"P", "2022-23", 0, 1⟩, ⟨"P", "2023-24", 0, 1⟩,
          ⟨"P", "2024-25", 1, 1⟩, ⟨"P", "2024-25", 2, 1⟩]
        = ["Provider", "2022-23", "2023-24", "2024-25",
           "2024-25 Q1", "2024-25 Q2"] := by
  refine ⟨?_, by decide, by decide⟩
  intro data wf
  refine ⟨sortKeysAsc_pairwise _, ?_, ?_⟩
  · intro hq
    unfold startsFinalKeys
    rw [hq, buildFinalKeys_nil_qks]
  · intro q0 qrest h
    exact starts_plan_insert wf h

/-- Witness for C3: the well-formedness hypothesis holds of the scenario
record set and the theorem applies there. -/
theorem spec_C3_witness :
    WFnoQ [⟨"P", "2022-23", 0, 1⟩, ⟨"P", "2023-24", 0, 1⟩,
      ⟨"P", "2024-25", 1, 1⟩, ⟨"P", "2024-25", 2, 1⟩]
    ∧ (List.Pairwise (fun a b => pairLt (sortPair b) (sortPair a) = false)
        (startsSortedKeys [⟨"P", "2022-23", 0, 1⟩, ⟨"P", "2023-24", 0, 1⟩,
          ⟨"P", "2024-25", 1, 1⟩, ⟨"P", "2024-25", 2, 1⟩])
      ∧ (startsQKeys [⟨"P", "2022-23", 0, 1⟩, ⟨"P", "2023-24", 0, 1⟩,
            ⟨"P", "2024-25", 1, 1⟩, ⟨"P", "2024-25", 2, 1⟩] = []
          → startsFinalKeys [⟨"P", "2022-23", 0, 1⟩, ⟨"P", "2023-24", 0, 1⟩,
              ⟨"P", "2024-25", 1, 1⟩, ⟨"P", "2024-25", 2, 1⟩]
            = startsSortedKeys [⟨"P", "2022-23", 0, 1⟩, ⟨"P", "2023-24", 0, 1⟩,
              ⟨"P", "2024-25", 1, 1⟩, ⟨"P", "2024-25", 2, 1⟩])
      ∧ (∀ (q0 : PeriodKey) (qrest : List PeriodKey),
          startsQKeys [⟨"P", "2022-23", 0, 1⟩, ⟨"P", "2023-24", 0, 1⟩,
            ⟨"P", "2024-25", 1, 1⟩, ⟨"P", "2024-25", 2, 1⟩] = q0 :: qrest →
          ∃ pre post,
            startsSortedKeys [⟨"P", "2022-23", 0, 1⟩, ⟨"P", "2023-24", 0, 1⟩,
              ⟨"P", "2024-25", 1, 1⟩, ⟨"P", "2024-25", 2, 1⟩]
              = pre ++ q0 :: post
            ∧ (∀ k ∈ pre,
                (keyStartsWith k (startsMr [⟨"P", "2022-23", 0, 1⟩,
                  ⟨"P", "2023-24", 0, 1⟩, ⟨"P", "2024-25", 1, 1⟩,
                  ⟨"P", "2024-25", 2, 1⟩]) && keyHasQ k) = false)
            ∧ startsFinalKeys [⟨"P", "2022-23", 0, 1⟩, ⟨"P", "2023-24", 0, 1⟩,
                ⟨"P", "2024-25", 1, 1⟩, ⟨"P", "2024-25", 2, 1⟩]
              = pre ++ .base (startsMr [⟨"P", "2022-23", 0, 1⟩,
                  ⟨"P", "2023-24", 0, 1⟩, ⟨"P", "2024-25", 1, 1⟩,
                  ⟨"P", "2024-25", 2, 1⟩]) :: q0 :: post)) :=
  ⟨by decide,
    spec_C3.1 [⟨"P", "2022-23", 0, 1⟩, ⟨"P", "2023-24", 0, 1⟩,
      ⟨"P", "2024-25", 1, 1⟩, ⟨"P", "2024-25", 2, 1⟩] (by decide)⟩

/-- Claim C5, amended: the final column-key list is duplicate-free provided
the most recent base period is not simultaneously refined and unrefined —
i.e. provided either every most-recent-period record carries a positive
sub-period ordinal, or none does.  (When both kinds of record exist, the
synthetic total key duplicates the observed unrefined most-recent key; see
the counterexample.) -/
theorem spec_C5 (data : List StartsRecord) (wf : WFnoQ data)
    (h : (∀ r ∈ data, r.year = startsMr data → 0 < r.quarter)
      ∨ (∀ r ∈ data, r.year = startsMr data → r.quarter = 0)) :
    (startsFinalKeys data).Nodup := by
  cases hqk : startsQKeys data with
  | nil =>
    unfold startsFinalKeys
    rw [hqk, buildFinalKeys_nil_qks]
    exact nodup_startsSortedKeys data
  | cons q0 qrest =>
    rcases starts_plan_insert wf hqk with ⟨pre, post, hsp, hpre, hfin⟩
    have hq0mem : q0 ∈ startsSortedKeys data := by
      rw [hsp]
      exact List.mem_append.mpr (Or.inr (List.mem_cons_self _ _))
    have hq0keys := mem_startsSortedKeys_iff.mp hq0mem
    have hq0shape := starts_key_shape hq0keys
    have hrefined : ∃ r ∈ data, 0 < r.quarter ∧ r.year = startsMr data
        ∧ startsMr data ≠ "" := by
      rcases hq0shape with h1 | h1
      · rcases h1 with ⟨r, hr, hbase, _⟩
        exfalso
        have hq0r : q0 ∈ startsQKeys data := by
          rw [hqk]; exact List.mem_cons_self _ _
        rcases mem_startsQKeys_elim wf hq0r with ⟨_, n, hn, hkr⟩
        rw [hkr] at hbase
        cases hbase
      · rcases h1 with ⟨r, hr, hq', hy, hm, _⟩
        exact ⟨r, hr, hq', hy, hm⟩
    rcases hrefined with ⟨r0, hr0, hq0', hy0, hm0⟩
    have hall : ∀ r ∈ data, r.year = startsMr data → 0 < r.quarter := by
      rcases h with h | h
      · exact h
      · exfalso
        have := h r0 hr0 hy0
        omega
    have hbasemr : PeriodKey.base (startsMr data) ∉ startsSortedKeys data := by
      intro hmem
      rcases starts_key_shape (mem_startsSortedKeys_iff.mp hmem) with h1 | h1
      · rcases h1 with ⟨r, hr, hbase, hnc⟩
        have hyr : r.year = startsMr data := by
          injection hbase with h'
          exact h'.symm
        exact hnc ⟨hm0, hyr, hall r hr hyr⟩
      · rcases h1 with ⟨r, _, _, _, _, hkr⟩
        cases hkr
    rw [hfin]
    have hnd : (pre ++ q0 :: post).Nodup := hsp ▸ nodup_startsSortedKeys data
    rw [List.nodup_middle]
    rw [List.nodup_cons]
    constructor
    · intro hmem
      apply hbasemr
      rw [hsp]
      exact hmem
    · exact hnd

/-- Witness for C5: the hypotheses hold of a concrete record set and the
theorem applies there. -/
theorem spec_C5_witness :
    (WFnoQ [⟨"P", "202425", 1, 1⟩, ⟨"P", "202324", 0, 2⟩]
      ∧ (∀ r ∈ [(⟨"P", "202425", 1, 1⟩ : StartsRecord), ⟨"P", "202324", 0, 2⟩],
          r.year = startsMr [⟨"P", "202425", 1, 1⟩, ⟨"P", "202324", 0, 2⟩]
            → 0 < r.quarter))
    ∧ (startsFinalKeys [⟨"P", "202425", 1, 1⟩, ⟨"P", "202324", 0, 2⟩]).Nodup :=
  ⟨⟨by decide, by decide⟩,
    spec_C5 [⟨"P", "202425", 1, 1⟩, ⟨"P", "202324", 0, 2⟩] (by decide)
      (Or.inl (by decide))⟩

/-- Counterexample to C5 as stated: when the most recent period has both an
unrefined (quarter-0) record and a refined record, the planner inserts the
synthetic total key next to the observed unrefined key and the column list
contains "202425" twice. -/
theorem spec_C5_counterexample :
    startsFinalKeys [⟨"P", "202425", 0, 1⟩, ⟨"P", "202425", 1, 1⟩]
      = [.base "202425", .base "202425", .refined "202425" 1]
    ∧ ¬(startsFinalKeys [⟨"P", "202425", 0, 1⟩, ⟨"P", "202425", 1, 1⟩]).Nodup := by
  exact ⟨by decide, by decide⟩

theorem provLookup_foldl_adjust (l : List (PeriodKey × Nat)) (p : String) :
    ∀ (agg : AggMatrix),
      provLookup p (l.foldl (fun a kv => addToAgg p kv.1 kv.2 a) agg)
        = l.foldl (fun d kv => addToAssoc kv.1 kv.2 d) (provLookup p agg) := by
  induction l with
  | nil => intro agg; rfl
  | cons kv rest ih =>
    intro agg
    rw [List.foldl_cons, List.foldl_cons, ih, provLookup_addToAgg, if_pos rfl]

theorem provLookup_append_right {p : String} {A B : AggMatrix}
    (h : p ∉ A.map Prod.fst) : provLookup p (A ++ B) = provLookup p B := by
  induction A with
  | nil => rfl
  | cons pd rest ih =>
    obtain ⟨p', d⟩ := pd
    simp only [List.map_cons, List.mem_cons, not_or] at h
    rw [List.cons_append, provLookup_cons,
      if_neg (fun hh : p' = p => h.1 hh.symm)]
    exact ih h.2

theorem fc_not_in_aggregate {data : List StartsRecord}
    (habs : fcName ∉ data.map (·.provider)) (mr : Option String) :
    fcName ∉ (aggregate_starts_by_provider_year data mr).map Prod.fst := by
  intro hmem
  rcases provFst_foldl mr data [] fcName hmem with h1 | h1
  · cases h1
  · rcases h1 with ⟨r, hr, he⟩
    exact habs (he ▸ List.mem_map_of_mem (·.provider) hr)

theorem londonFcData_of_absent {data : List StartsRecord}
    (habs : fcName ∉ data.map (·.provider)) :
    londonFcData data = fcAdjustments := by
  unfold londonFcData londonAgg apply_founders_coders_adjustments
  have hno : fcName
      ∉ (aggregate_starts_by_provider_year data (some (londonMr data))).map
          Prod.fst :=
    fc_not_in_aggregate habs _
  have hens : ensureProv fcName
      (aggregate_starts_by_provider_year data (some (londonMr data)))
      = aggregate_starts_by_provider_year data (some (londonMr data))
        ++ [(fcName, [])] := by
    unfold ensureProv
    rw [if_neg]
    intro hc
    exact hno ((containsProv_iff _ _).mp hc)
  rw [provLookup_foldl_adjust, hens, provLookup_append_right hno]
  rfl

/-- Claim C9, amended: in `london_sme.py`, for every record set on which the
column planner completes (`londonPlanRaises data = false`; when the
adjustments' quarterly keys are present while the most recent raw period has
no refined keys, the real `prepare_london_sme_table_data` raises an
`IndexError` and produces no row at all — the counterexample exhibits such
an input), a FOUNDERS & CODERS tuple that appears in no raw record is still
created from the adjustments mapping and shown as the first row, with no
error; its value is exactly the adjustment amount at every adjusted key, and
0 at every other column except the synthetic most-recent-period total
column, whose value is the sum of the adjustments over that period's
quarterly keys.  (The original claim's "0 for every other column" fails at
the synthetic column, and its unconditional "is not treated as an error"
fails on the raising inputs; see the counterexample.) -/
theorem spec_C9 (data : List StartsRecord)
    (habs : fcName ∉ data.map (·.provider))
    (hok : londonPlanRaises data = false) :
    londonFcData data = fcAdjustments
    ∧ londonFcData data ≠ []
    ∧ (londonRows data).head? = some (Cell.str fcName ::
        (londonFinalKeys data).map (fun k => Cell.num
          (rowValue (londonMr data) (londonQKeys data) (londonFcData data) k)))
    ∧ (∀ k, k ≠ .base (londonMr data) →
        rowValue (londonMr data) (londonQKeys data) (londonFcData data) k
          = lookupD k fcAdjustments)
    ∧ (∀ k, k ≠ .base (londonMr data) → k ∉ fcAdjustments.map Prod.fst →
        rowValue (londonMr data) (londonQKeys data) (londonFcData data) k = 0)
    ∧ rowValue (londonMr data) (londonQKeys data) (londonFcData data)
        (.base (londonMr data))
      = ((londonQKeys data).map (fun q => lookupD q fcAdjustments)).sum := by
  have h1 := londonFcData_of_absent habs
  have hne : londonFcData data ≠ [] := by
    rw [h1]
    intro he
    cases he
  refine ⟨h1, hne, ?_, ?_, ?_, ?_⟩
  · unfold londonRows
    dsimp only
    rw [if_pos hne]
    rfl
  · intro k hk
    rw [rowValue, if_neg hk, h1]
  · intro k hk hadj
    rw [rowValue, if_neg hk, h1]
    exact lookupD_eq_zero_of_not_mem hadj
  · rw [rowValue, if_pos rfl, h1]

/-- Witness for C9: the absence and planner-completes hypotheses hold of a
concrete record set and the theorem applies there. -/
theorem spec_C9_witness :
    (fcName ∉ ([⟨"ACME", "202425", 1, 5⟩] : List StartsRecord).map (·.provider)
      ∧ londonPlanRaises [⟨"ACME", "202425", 1, 5⟩] = false)
    ∧ londonFcData [⟨"ACME", "202425", 1, 5⟩] = fcAdjustments
    ∧ rowValue (londonMr [⟨"ACME", "202425", 1, 5⟩])
        (londonQKeys [⟨"ACME", "202425", 1, 5⟩])
        (londonFcData [⟨"ACME", "202425", 1, 5⟩])
        (.base (londonMr [⟨"ACME", "202425", 1, 5⟩]))
      = ((londonQKeys [⟨"ACME", "202425", 1, 5⟩]).map
          (fun q => lookupD q fcAdjustments)).sum :=
  ⟨⟨by decide, by decide⟩,
    (spec_C9 [⟨"ACME", "202425", 1, 5⟩] (by decide) (by decide)).1,
    (spec_C9 [⟨"ACME", "202425", 1, 5⟩] (by decide) (by decide)).2.2.2.2.2⟩

/-- Counterexample to C9 as stated, in both of its failure modes.  First,
with one raw record (another provider, year 202425, quarter 1) and FOUNDERS
& CODERS absent from the raw records, the FC row's value in the synthetic
total column — a column whose key is not in the adjustments mapping — is 4
(the sum of the quarterly adjustments), not 0.  Second, with one raw record
of a later year 202526 carrying quarter 0, the adjustments inject
`"202425 Q…"` keys while `quarterly_keys` is empty, so the raise condition
of the planner holds: the real program raises an `IndexError` there and
produces no FC row, against the claim's "this is not treated as an
error". -/
theorem spec_C9_counterexample :
    fcName ∉ ([⟨"ACME", "202425", 1, 5⟩] : List StartsRecord).map (·.provider)
    ∧ PeriodKey.base "202425" ∈ londonFinalKeys [⟨"ACME", "202425", 1, 5⟩]
    ∧ PeriodKey.base "202425" ∉ fcAdjustments.map Prod.fst
    ∧ rowValue (londonMr [⟨"ACME", "202425", 1, 5⟩])
        (londonQKeys [⟨"ACME", "202425", 1, 5⟩])
        (londonFcData [⟨"ACME", "202425", 1, 5⟩]) (.base "202425") = 4
    ∧ (4 : Nat) ≠ 0
    ∧ fcName ∉ ([⟨"ACME", "202526", 0, 5⟩] : List StartsRecord).map (·.provider)
    ∧ londonPlanRaises [⟨"ACME", "202526", 0, 5⟩] = true := by
  refine ⟨by decide, by decide, by decide, by decide, by decide,
    by decide, by decide⟩

/-- Claim C8: the code does not fail on a sub-period ordinal outside 1–4.
`extract_year_quarter_from_filename` returns quarter 7 for a `-q7` filename
(its own docstring documents quarters 1–4), and the starts pipeline sorts
and renders a "2024-25 Q7" column for a quarter-7 record instead of raising:
the table it produces is non-empty and contains the Q7 key. -/
theorem spec_C8 :
    extract_year_quarter_from_filename
        "app-underlying-data-vacancies-202425-q7.csv" = (2024, 25, 7)
    ∧ PeriodKey.refined "202425" 7 ∈ startsFinalKeys [⟨"P", "202425", 7, 2⟩]
    ∧ headerLabel (.refined "202425" 7) = "2024-25 Q7"
    ∧ startsRows [⟨"P", "202425", 7, 2⟩] 0
        = [[.str "**Total**", .str "**2**", .str "**2**"],
           [.str "P", .num 2, .num 2]] := by
  refine ⟨by decide, by decide, by decide, by decide⟩

theorem findSix_some_run : ∀ {cs : List Char} {ds : List Char},
    findSix cs = some ds → HasSixDigitRun cs := by
  intro cs
  induction cs with
  | nil => intro ds h; cases h
  | cons c cs ih =>
    intro ds h
    by_cases hc : checkSix (c :: cs) = true
    · refine ⟨[], (c :: cs).take 6, (c :: cs).drop 6,
        (List.take_append_drop 6 (c :: cs)).symm, ?_, ?_⟩
      · exact of_decide_eq_true (Bool.and_eq_true_iff.mp hc).1
      · intro x hx
        exact List.all_eq_true.mp (Bool.and_eq_true_iff.mp hc).2 x hx
    · rw [Bool.not_eq_true] at hc
      simp only [findSix, hc, Bool.false_eq_true, if_false] at h
      rcases ih h with ⟨pre, run, post, heq, hlen, hdig⟩
      exact ⟨c :: pre, run, post, by rw [heq]; rfl, hlen, hdig⟩

theorem findSix_isSome_append (pre run post : List Char)
    (hlen : run.length = 6) (hdig : ∀ c ∈ run, c.isDigit) :
    findSix (pre ++ run ++ post) ≠ none := by
  induction pre with
  | nil =>
    rw [List.nil_append]
    have hcheck : checkSix (run ++ post) = true := by
      have ht : (run ++ post).take 6 = run := by
        rw [← hlen]
        exact List.take_left run post
      unfold checkSix
      rw [ht, hlen]
      simp only [decide_eq_true_eq, Bool.and_eq_true, List.all_eq_true]
      exact ⟨trivial, hdig⟩
    cases hrp : run ++ post with
    | nil =>
      exfalso
      have : run = [] := by
        cases run with
        | nil => rfl
        | cons a as => cases hrp
      rw [this] at hlen
      cases hlen
    | cons c rest =>
      rw [hrp] at hcheck
      simp only [findSix, hcheck, if_true]
      intro h
      cases h
  | cons p pre' ih =>
    rw [List.cons_append, List.cons_append]
    by_cases hc : checkSix (p :: (pre' ++ run ++ post)) = true
    · simp only [findSix, hc, if_true]
      intro h
      cases h
    · rw [Bool.not_eq_true] at hc
      simp only [findSix, hc, Bool.false_eq_true, if_false]
      exact ih

theorem extract_sentinel {s : String} (h : ¬HasSixDigitRun s.data) :
    extract_year_quarter_from_filename s = (0, 0, 0) := by
  cases hfs : findSix s.data with
  | none =>
    unfold extract_year_quarter_from_filename
    rw [hfs]
  | some ds => exact absurd (findSix_some_run hfs) h

/-- Claim C7: filename parsing returns the `(0, 0, 0)` sentinel whenever the
filename contains no run of six consecutive digits; otherwise the first four
digits of the leftmost run are the year start and the last two the year end,
a case-insensitive `-q<digit>` token wins over a month name, and English
month abbreviations or full names map to 1–12 — witnessed by the spec's
three scenario filenames together with a quarter/month-preference example, a
case-insensitivity example and a full-month-name example. -/
theorem spec_C7 :
    (∀ s : String, ¬HasSixDigitRun s.data →
      extract_year_quarter_from_filename s = (0, 0, 0))
    ∧ extract_year_quarter_from_filename
        "app-underlying-data-vacancies-202425-q2.csv" = (2024, 25, 2)
    ∧ extract_year_quarter_from_filename
        "app-underlying-data-monthly-202324-nov.csv" = (2023, 24, 11)
    ∧ extract_year_quarter_from_filename "invalid-file.csv" = (0, 0, 0)
    ∧ extract_year_quarter_from_filename
        "app-underlying-data-monthly-202425-nov-Q3.csv" = (2024, 25, 3)
    ∧ extract_year_quarter_from_filename
        "app-underlying-data-monthly-202324-november.csv" = (2023, 24, 11) := by
  refine ⟨fun s h => extract_sentinel h,
    by decide, by decide, by decide, by decide, by decide⟩

/-- Witness for C7: the no-six-digit-run hypothesis is established for the
concrete filename `invalid-file.csv` and the theorem applies there. -/
theorem spec_C7_witness :
    ¬HasSixDigitRun "invalid-file.csv".data
    ∧ extract_year_quarter_from_filename "invalid-file.csv" = (0, 0, 0) := by
  have hno : ¬HasSixDigitRun "invalid-file.csv".data := by
    intro h
    rcases h with ⟨pre, run, post, heq, hlen, hdig⟩
    exact findSix_isSome_append pre run post hlen hdig
      (by rw [← heq]; decide)
  exact ⟨hno, spec_C7.1 "invalid-file.csv" hno⟩

theorem tripLt_iff (a b : Nat × Nat × Nat) :
    tripLt a b = true
      ↔ (a.1 < b.1 ∨ (a.1 = b.1 ∧ (a.2.1 < b.2.1
          ∨ (a.2.1 = b.2.1 ∧ a.2.2 < b.2.2)))) := by
  simp [tripLt, Bool.or_eq_true, Bool.and_eq_true, decide_eq_true_eq,
    beq_iff_eq]

theorem tripLt_false_iff (a b : Nat × Nat × Nat) :
    tripLt a b = false
      ↔ ¬(a.1 < b.1 ∨ (a.1 = b.1 ∧ (a.2.1 < b.2.1
          ∨ (a.2.1 = b.2.1 ∧ a.2.2 < b.2.2)))) := by
  rw [← tripLt_iff]
  cases tripLt a b <;> simp

theorem tripLt_asymm {a b : Nat × Nat × Nat} (h : tripLt a b = true) :
    tripLt b a = false := by
  rw [tripLt_iff] at h
  rw [tripLt_false_iff]
  omega

theorem tripLt_nlt_trans {a b c : Nat × Nat × Nat}
    (h1 : tripLt a b = false) (h2 : tripLt b c = false) :
    tripLt a c = false := by
  rw [tripLt_false_iff] at h1 h2 ⊢
  omega

theorem head?_insertFileDesc (x : String) (l : List String) :
    (insertFileDesc x l).head?
      = match l.head? with
        | none => some x
        | some y =>
            if tripLt (fileSortKey x) (fileSortKey y) then some y else some x := by
  cases l with
  | nil => rfl
  | cons y ys =>
    by_cases h : tripLt (fileSortKey x) (fileSortKey y) = true
    · simp only [insertFileDesc, h, if_true, List.head?_cons]
    · rw [Bool.not_eq_true] at h
      simp only [insertFileDesc, h, Bool.false_eq_true, if_false,
        List.head?_cons]

theorem findLatestFrom_eq_spec (l : List String) :
    findLatestFrom l = specSelectLatest l := by
  induction l with
  | nil => rfl
  | cons x xs ih =>
    unfold findLatestFrom sortFilesDesc
    rw [List.foldr_cons, head?_insertFileDesc]
    unfold findLatestFrom sortFilesDesc at ih
    rw [ih]
    rfl

theorem specSelectLatest_mem : ∀ {l : List String} {x : String},
    specSelectLatest l = some x → x ∈ l := by
  intro l
  induction l with
  | nil => intro x h; cases h
  | cons y ys ih =>
    intro x h
    unfold specSelectLatest at h
    cases hys : specSelectLatest ys with
    | none =>
      rw [hys] at h
      dsimp only at h
      injection h with h'
      exact h' ▸ List.mem_cons_self _ _
    | some z =>
      rw [hys] at h
      dsimp only at h
      by_cases ht : tripLt (fileSortKey y) (fileSortKey z) = true
      · rw [if_pos ht] at h
        injection h with h'
        exact List.mem_cons_of_mem _ (ih (h' ▸ hys))
      · rw [if_neg ht] at h
        injection h with h'
        exact h' ▸ List.mem_cons_self _ _

theorem specSelectLatest_max : ∀ {l : List String} {x : String},
    specSelectLatest l = some x →
    ∀ y ∈ l, tripLt (fileSortKey x) (fileSortKey y) = false := by
  intro l
  induction l with
  | nil => intro x h; cases h
  | cons z zs ih =>
    intro x h y hy
    unfold specSelectLatest at h
    cases hzs : specSelectLatest zs with
    | none =>
      rw [hzs] at h
      dsimp only at h
      injection h with h'
      subst h'
      rcases List.mem_cons.mp hy with h1 | h1
      · subst h1
        rw [tripLt_false_iff]
        omega
      · cases zs with
        | nil => cases h1
        | cons w ws =>
          exfalso
          unfold specSelectLatest at hzs
          cases hws : specSelectLatest ws with
          | none => rw [hws] at hzs; dsimp only at hzs; cases hzs
          | some v =>
            rw [hws] at hzs
            dsimp only at hzs
            by_cases ht : tripLt (fileSortKey w) (fileSortKey v) = true
            · rw [if_pos ht] at hzs; cases hzs
            · rw [if_neg ht] at hzs
              cases hzs
    | some v =>
      rw [hzs] at h
      dsimp only at h
      by_cases ht : tripLt (fileSortKey z) (fileSortKey v) = true
      · rw [if_pos ht] at h
        injection h with h'
        subst h'
        rcases List.mem_cons.mp hy with h1 | h1
        · subst h1
          exact tripLt_asymm ht
        · exact ih hzs y h1
      · rw [if_neg ht] at h
        injection h with h'
        subst h'
        rw [Bool.not_eq_true] at ht
        rcases List.mem_cons.mp hy with h1 | h1
        · subst h1
          rw [tripLt_false_iff]
          omega
        · exact tripLt_nlt_trans ht (ih hzs y h1)

/-- Claim C6: the resolver's selection over an assembled candidate list
coincides with the spec's contract `specSelectLatest` (lexicographically
greatest `(yearStart, yearEnd, subPeriod)` key, ties to the earlier
candidate); the empty candidate list yields `none`; and any returned path is
a member of the candidate list whose key no candidate strictly exceeds. -/
theorem spec_C6 :
    (∀ l : List String, findLatestFrom l = specSelectLatest l)
    ∧ findLatestFrom [] = none
    ∧ (∀ (l : List String) (x : String), findLatestFrom l = some x →
        x ∈ l ∧ ∀ y ∈ l, tripLt (fileSortKey x) (fileSortKey y) = false) := by
  refine ⟨findLatestFrom_eq_spec, rfl, ?_⟩
  intro l x h
  rw [findLatestFrom_eq_spec] at h
  exact ⟨specSelectLatest_mem h, specSelectLatest_max h⟩

/-- Witness for C6: the selection hypothesis holds of a concrete candidate
list (two files with equal keys after a newer one, exercising the
first-discovered tie break) and the theorem applies there. -/
theorem spec_C6_witness :
    findLatestFrom ["app-a-202324-q2.csv", "app-b-202425-q1.csv",
        "app-c-202425-q1.csv"] = some "app-b-202425-q1.csv"
    ∧ "app-b-202425-q1.csv" ∈ ["app-a-202324-q2.csv", "app-b-202425-q1.csv",
        "app-c-202425-q1.csv"]
    ∧ ∀ y ∈ ["app-a-202324-q2.csv", "app-b-202425-q1.csv",
        "app-c-202425-q1.csv"],
        tripLt (fileSortKey "app-b-202425-q1.csv") (fileSortKey y) = false :=
  ⟨by decide,
    (spec_C6.2.2 ["app-a-202324-q2.csv", "app-b-202425-q1.csv",
      "app-c-202425-q1.csv"] "app-b-202425-q1.csv" (by decide)).1,
    (spec_C6.2.2 ["app-a-202324-q2.csv", "app-b-202425-q1.csv",
      "app-c-202425-q1.csv"] "app-b-202425-q1.csv" (by decide)).2⟩

theorem flatMap_eq_nil_of_forall {l : List α} {f : α → List β}
    (h : ∀ x ∈ l, f x = []) : l.flatMap f = [] := by
  induction l with
  | nil => rfl
  | cons x xs ih =>
    rw [List.flatMap_cons, h x (List.mem_cons_self _ _), List.nil_append]
    exact ih (fun x' hx' => h x' (List.mem_cons_of_mem _ hx'))

/-- Claim C10: the compressed-archive fallback gathers candidates only from
the versioned subfolder globs — when every `<folder_prefix>_*/<subfolder>/`
glob is empty it returns `none` no matter what the working-directory glob
would match — while `find_latest_file` with the same pattern and filesystem
does consult the working directory and returns the archive found there. -/
theorem spec_C10 :
    (∀ (fs : FileSys) (zipPattern folderPfx subfolder : String),
        (∀ folder ∈ fs.glob (folderPfx ++ "_*"),
          fs.glob (folder ++ "/" ++ subfolder ++ "/" ++ zipPattern) = []) →
        extract_from_zip_if_needed fs zipPattern folderPfx subfolder = none)
    ∧ extract_from_zip_if_needed
        ⟨fun p => if p = "app-underlying-data-starts-*.zip"
            then ["app-underlying-data-starts-202425-q2.zip"] else [],
          fun _ => []⟩
        "app-underlying-data-starts-*.zip" "apprenticeships"
        "supporting-files" = none
    ∧ find_latest_file
        ⟨fun p => if p = "app-underlying-data-starts-*.zip"
            then ["app-underlying-data-starts-202425-q2.zip"] else [],
          fun _ => []⟩
        "app-underlying-data-starts-*.zip" "apprenticeships"
        "supporting-files" = some "app-underlying-data-starts-202425-q2.zip" := by
  refine ⟨?_, by decide, by decide⟩
  intro fs zipPattern folderPfx subfolder h
  unfold extract_from_zip_if_needed
  dsimp only
  rw [flatMap_eq_nil_of_forall h]
  rfl

/-- Witness for C10: the all-folder-globs-empty hypothesis holds of a
concrete filesystem whose archives live only in the working directory, and
the theorem applies there. -/
theorem spec_C10_witness :
    (∀ folder ∈ (FileSys.mk
        (fun p => if p = "app-underlying-data-starts-*.zip"
          then ["app-underlying-data-starts-202425-q2.zip"] else [])
        (fun _ => [])).glob ("apprenticeships" ++ "_*"),
      (FileSys.mk
        (fun p => if p = "app-underlying-data-starts-*.zip"
          then ["app-underlying-data-starts-202425-q2.zip"] else [])
        (fun _ => [])).glob
          (folder ++ "/" ++ "supporting-files" ++ "/"
            ++ "app-underlying-data-starts-*.zip") = [])
    ∧ extract_from_zip_if_needed
        (FileSys.mk
          (fun p => if p = "app-underlying-data-starts-*.zip"
            then ["app-underlying-data-starts-202425-q2.zip"] else [])
          (fun _ => []))
        "app-underlying-data-starts-*.zip" "apprenticeships"
        "supporting-files" = none :=
  ⟨by intro folder hf; simp at hf,
    spec_C10.1
      (FileSys.mk
        (fun p => if p = "app-underlying-data-starts-*.zip"
          then ["app-underlying-data-starts-202425-q2.zip"] else [])
        (fun _ => []))
      "app-underlying-data-starts-*.zip" "apprenticeships" "supporting-files"
      (by intro folder hf; simp at hf)⟩
